import Mathlib

/-!
Verification of the aplan WBS tree engine (src/subsystem/wsb.rs, src/task/task_id.rs,
src/task/mod.rs) against its natural-language specification.

Modelling conventions:
* a Rust `TaskId` (`Vec<u32>`) is a `List Nat`; `u32` indices are modelled as `Nat`
  (no claim under study depends on 32-bit wraparound of the indices themselves;
  the `< 2 ^ 32` range check of `u32::from_str` is modelled explicitly in `parseU32`);
* `f64` planned values / actual costs are modelled as `Rat` (exact arithmetic);
* the `HashMap<TaskId, Task>` store is an association list with `lookupTask`,
  `insertTask` (replace-in-place or append) and `eraseKey` (erase every binding of the
  key; bindings are kept key-unique by the operations, so this agrees with
  `HashMap::remove`);
* Rust methods that mutate the map are state-passing functions
  `... → Store → Except Error α × Store`, returning the (possibly partially mutated)
  store together with the result, mirroring `?`-propagation points exactly;
* the recursion of `WSB::subtract_id` (whose Rust termination rests on the finiteness
  of the map) is given an explicit fuel parameter; `WSB::remove` supplies
  `maxKeyLen + 1` fuel, which is shown to be enough on every store arising in the
  theorems below;
* the inert `dependencies` / `dependency_for` sets of `Task` are omitted: no claim
  mentions them and no modelled operation reads or writes them.
-/

namespace Aplan

/-- Error kinds, from src/error.rs as used by the modelled operations
(member-assignment errors are omitted together with the member operations). -/
inductive Error where
  | TaskNotFound (id : List Nat)
  | NoParent (id : List Nat)
  | NoChildIndex (id : List Nat)
  | BadTaskIdString (s : List Char)
  | BadTaskIdNum
  | NoNextSibling (id : List Nat)
  | NoPrevSibling (id : List Nat)
  | TrunkCannotBeRemoved (id : List Nat)
  | TrunkCannotChangeCost (id : List Nat)
  | TrunkCannotChangeValue (id : List Nat)
deriving DecidableEq, Repr

/-- A hierarchical identifier: the sequence of 1-based sibling indices
(`TaskId { id: Vec<u32> }` in src/task/task_id.rs). Root is the empty sequence. -/
abbrev TaskId := List Nat

/-- Decimal rendering of one index, as Rust `u32::to_string` produces it
(big-endian digits, no sign, `0` renders as "0"). -/
def natChars (n : Nat) : List Char :=
  if n = 0 then ['0'] else ((Nat.digits 10 n).map (fun d => Char.ofNat (48 + d))).reverse

/-- Rust `str::split('.')`: splits into segments, keeping empty segments,
and yields one empty segment on empty input. -/
def splitDot : List Char → List (List Char)
  | [] => [[]]
  | c :: rest =>
    if c = '.' then [] :: splitDot rest
    else
      match splitDot rest with
      | [] => [[c]]
      | s :: ss => (c :: s) :: ss

/-- Numeric value of a big-endian digit string. -/
def segVal (t : List Char) : Nat :=
  t.foldl (fun a c => a * 10 + (c.toNat - 48)) 0

/-- Rust `u32::from_str`: an optional leading '+', then one or more ASCII digits,
with the value required to fit in 32 bits. -/
def parseU32 (s : List Char) : Option Nat :=
  let t := match s with
    | '+' :: rest => rest
    | _ => s
  if t ≠ [] ∧ t.all Char.isDigit = true then
    if segVal t < 2 ^ 32 then some (segVal t) else none
  else none

namespace TaskId

/-- `TaskId::child_idx`: the last index, `NoChildIndex` on root. -/
def child_idx (id : TaskId) : Except Error Nat :=
  match id.getLast? with
  | none => .error (.NoChildIndex id)
  | some n => .ok n

/-- `TaskId::parse`: empty text is root, otherwise split on '.' and parse every
segment as a `u32`, failing with `BadTaskIdString` if any segment fails. -/
def parse (s : List Char) : Except Error TaskId :=
  if s = [] then .ok []
  else
    match (splitDot s).mapM parseU32 with
    | some v => .ok v
    | none => .error (.BadTaskIdString s)

/-- `TaskId::parent`: all but the last index, `NoParent` on root. -/
def parent (id : TaskId) : Except Error TaskId :=
  if id = [] then .error (.NoParent id) else .ok id.dropLast

/-- `TaskId::new_child_id`: append an index, `BadTaskIdNum` when it is zero. -/
def new_child_id (id : TaskId) (child_num : Nat) : Except Error TaskId :=
  if child_num = 0 then .error .BadTaskIdNum else .ok (id ++ [child_num])

/-- `TaskId::prev_sibling`: parent's child at index one less.
(Rust would underflow on a zero index; indices of identifiers in any store built by
the engine are always ≥ 1, and the theorems below only quantify over such indices.) -/
def prev_sibling (id : TaskId) : Except Error TaskId := do
  let parent_id ← parent id
  let c ← child_idx id
  new_child_id parent_id (c - 1)

/-- `TaskId::next_sibling`: parent's child at index one more. -/
def next_sibling (id : TaskId) : Except Error TaskId := do
  let parent_id ← parent id
  let c ← child_idx id
  new_child_id parent_id (c + 1)

/-- `TaskId::child_ids`: the direct child identifiers `id ++ [1] … id ++ [n]`. -/
def child_ids (id : TaskId) (num_childs : Nat) : List TaskId :=
  (List.range' 1 num_childs).map (fun i => id ++ [i])

/-- `TaskId::path`: root, then every ancestor prefix, up to and including `id`. -/
def path (id : TaskId) : List TaskId :=
  [] :: (List.range id.length).map (fun i => id.take (i + 1))

/-- `impl Display for TaskId`: dot-joined decimal segments; root renders empty. -/
def toText (id : TaskId) : List Char :=
  List.intercalate ['.'] (id.map natChars)

end TaskId

/-- Completion status (src/task/mod.rs). -/
inductive TaskStatus where
  | InProgress
  | Done
deriving DecidableEq, Repr

/-- A tree node (src/task/mod.rs). `f64` fields are modelled as `Rat`; the inert
dependency sets are omitted (never read by the modelled operations). -/
structure Task where
  name : String
  id : TaskId
  planned_value : Rat
  actual_cost : Rat
  num_child : Nat
  status : TaskStatus
deriving DecidableEq, Repr

namespace Task

/-- `Task::new`: zero aggregates, no children, `InProgress`. -/
def new (id : TaskId) (name : String) : Task :=
  { name := name, id := id, planned_value := 0, actual_cost := 0,
    num_child := 0, status := .InProgress }

/-- `Task::is_trunk`. -/
def is_trunk (t : Task) : Bool := decide (0 < t.num_child)

/-- `Task::is_leaf`. -/
def is_leaf (t : Task) : Bool := decide (t.num_child = 0)

/-- `Task::child_ids`: derived from the task's own id field and child count. -/
def child_ids (t : Task) : List TaskId := TaskId.child_ids t.id t.num_child

end Task

/-- The task store: `HashMap<TaskId, Task>` as a key-unique association list. -/
abbrev Store := List (TaskId × Task)

/-- `HashMap::get`. -/
def lookupTask : Store → TaskId → Option Task
  | [], _ => none
  | (k, t) :: rest, q => if k = q then some t else lookupTask rest q

/-- `HashMap::insert`: replace the binding in place, or append a fresh one. -/
def insertTask : Store → TaskId → Task → Store
  | [], k, t => [(k, t)]
  | (k', t') :: rest, k, t =>
    if k' = k then (k, t) :: rest else (k', t') :: insertTask rest k t

/-- `HashMap::remove` (drop every binding of the key; bindings are key-unique
in every store the engine builds, so at most one is dropped). -/
def eraseKey : Store → TaskId → Store
  | [], _ => []
  | (k', t') :: rest, k =>
    if k' = k then eraseKey rest k else (k', t') :: eraseKey rest k

/-- Length of the longest key; bounds the depth of `subtract_id`'s recursion. -/
def maxKeyLen (M : Store) : Nat := M.foldr (fun kv acc => max kv.1.length acc) 0

namespace WSB

/-- `WSB::new`: a fresh store holding only the root task. -/
def new (name : String) : Store := insertTask [] [] (Task.new [] name)

/-- `WSB::get_task`. -/
def get_task (task_id : TaskId) (M : Store) : Except Error Task :=
  match lookupTask M task_id with
  | none => .error (.TaskNotFound task_id)
  | some t => .ok t

/-- `WSB::next_sibling`: arithmetic failures of `TaskId::next_sibling` propagate
unchanged; only a failed lookup of the computed sibling id becomes `NoNextSibling`. -/
def next_sibling (task_id : TaskId) (M : Store) : Except Error Task :=
  match TaskId.next_sibling task_id with
  | .error e => .error e
  | .ok sib =>
    match get_task sib M with
    | .error _ => .error (.NoNextSibling task_id)
    | .ok t => .ok t

/-- `WSB::prev_sibling`: arithmetic failures propagate unchanged; only a failed
lookup of the computed sibling id becomes `NoPrevSibling`. -/
def prev_sibling (task_id : TaskId) (M : Store) : Except Error Task :=
  match TaskId.prev_sibling task_id with
  | .error e => .error e
  | .ok sib =>
    match get_task sib M with
    | .error _ => .error (.NoPrevSibling task_id)
    | .ok t => .ok t

/-- The `try_for_each` loop of `WSB::apply_along_path`, over an explicit id list. -/
def apply_ids (f : Task → Task) : List TaskId → Store → Except Error Unit × Store
  | [], M => (.ok (), M)
  | i :: rest, M =>
    match lookupTask M i with
    | none => (.error (.TaskNotFound i), M)
    | some t => apply_ids f rest (insertTask M i (f t))

/-- `WSB::apply_along_path`: apply `f` to every task on the root-to-`id` path. -/
def apply_along_path (id : TaskId) (f : Task → Task) (M : Store) :
    Except Error Unit × Store :=
  apply_ids f (TaskId.path id) M

/-- `WSB::add_task`. -/
def add_task (parent_task_id : TaskId) (name : String) (M : Store) :
    Except Error Task × Store :=
  match lookupTask M parent_task_id with
  | none => (.error (.TaskNotFound parent_task_id), M)
  | some parent0 =>
    let parent1 := { parent0 with num_child := parent0.num_child + 1 }
    let M1 := insertTask M parent_task_id parent1
    match TaskId.new_child_id parent_task_id parent1.num_child with
    | .error e => (.error e, M1)
    | .ok task_id =>
      let M2 := insertTask M1 task_id (Task.new task_id name)
      match apply_along_path task_id (fun t => { t with status := TaskStatus.InProgress }) M2 with
      | (.error e, M3) => (.error e, M3)
      | (.ok _, M3) =>
        match lookupTask M3 task_id with
        | none => (.error (.TaskNotFound task_id), M3)
        | some t => (.ok t, M3)

/-- `WSB::children_are_done`: every direct child has status `Done`.
The source `unwrap`s its lookups; the `none` branches below are unreachable on
stores satisfying the structural invariant and are given defaults. -/
def children_are_done (task_id : TaskId) (M : Store) : Bool :=
  match lookupTask M task_id with
  | none => true
  | some t =>
    t.child_ids.all (fun cid =>
      match lookupTask M cid with
      | none => false
      | some c => decide (c.status = TaskStatus.Done))

/-- The bottom-up completion walk of `WSB::set_actual_cost`
(its trailing `try_for_each` over the reversed path). -/
def done_walk : List TaskId → Store → Except Error Unit × Store
  | [], M => (.ok (), M)
  | i :: rest, M =>
    if children_are_done i M then
      match lookupTask M i with
      | none => (.error (.TaskNotFound i), M)
      | some t => done_walk rest (insertTask M i { t with status := TaskStatus.Done })
    else done_walk rest M

/-- `WSB::set_actual_cost`: reject trunks, write the new cost, propagate the diff
to every ancestor, then re-evaluate completion bottom-up along the path. -/
def set_actual_cost (task_id : TaskId) (actual_cost : Rat) (M : Store) :
    Except Error Unit × Store :=
  match TaskId.parent task_id with
  | .error e => (.error e, M)
  | .ok parent_id =>
    match lookupTask M task_id with
    | none => (.error (.TaskNotFound task_id), M)
    | some t =>
      if t.is_trunk then (.error (.TrunkCannotChangeCost task_id), M)
      else
        let diff := actual_cost - t.actual_cost
        let M1 := insertTask M task_id { t with actual_cost := actual_cost }
        match apply_along_path parent_id
            (fun a => { a with actual_cost := a.actual_cost + diff }) M1 with
        | (.error e, M2) => (.error e, M2)
        | (.ok _, M2) => done_walk (TaskId.path task_id).reverse M2

/-- `WSB::set_planned_value`: reject trunks, write the new value, propagate the
diff to every ancestor. -/
def set_planned_value (task_id : TaskId) (planned_value : Rat) (M : Store) :
    Except Error Unit × Store :=
  match TaskId.parent task_id with
  | .error e => (.error e, M)
  | .ok parent_id =>
    match lookupTask M task_id with
    | none => (.error (.TaskNotFound task_id), M)
    | some t =>
      if t.is_trunk then (.error (.TrunkCannotChangeValue task_id), M)
      else
        let diff := planned_value - t.planned_value
        let M1 := insertTask M task_id { t with planned_value := planned_value }
        apply_along_path parent_id
          (fun a => { a with planned_value := a.planned_value + diff }) M1

/-- `WSB::remove_task_stats_from_tasks`: zero the task's cost, then its value. -/
def remove_task_stats_from_tasks (task_id : TaskId) (M : Store) :
    Except Error Unit × Store :=
  match set_actual_cost task_id 0 M with
  | (.error e, M1) => (.error e, M1)
  | (.ok _, M1) => set_planned_value task_id 0 M1

/-- Decrement the index at one position of an identifier
(the in-place `as_vec_mut()[layer_idx] -= 1` of `WSB::subtract_id`). -/
def decEntry (l : TaskId) (i : Nat) : TaskId := l.set i (l.getD i 0 - 1)

mutual

/-- `WSB::subtract_id`: relabel a whole subtree by decrementing the index at
`layer_idx`, re-inserting every node under its new identifier (old binding removed
first), recursing into the children computed from the pre-shift identifier.
`fuel` bounds the recursion depth (the Rust recursion terminates because the map
is finite); every caller below supplies provably sufficient fuel. -/
def subtract_id : Nat → TaskId → Nat → Store → Except Error Unit × Store
  | 0, child_id, _, M => (.error (.TaskNotFound child_id), M)
  | fuel + 1, child_id, layer_idx, M =>
    match lookupTask M child_id with
    | none => (.error (.TaskNotFound child_id), M)
    | some t =>
      let new_task_id := decEntry child_id layer_idx
      let M1 := insertTask (eraseKey M child_id) new_task_id { t with id := new_task_id }
      subtract_children fuel (TaskId.child_ids child_id t.num_child) layer_idx M1

/-- The `try_for_each` recursion of `WSB::subtract_id` over the child list. -/
def subtract_children : Nat → List TaskId → Nat → Store → Except Error Unit × Store
  | _, [], _, M => (.ok (), M)
  | fuel, node_id :: rest, layer_idx, M =>
    match subtract_id fuel node_id layer_idx M with
    | (.error e, M1) => (.error e, M1)
    | (.ok _, M1) => subtract_children fuel rest layer_idx M1

end

/-- The enumerated `try_for_each` loop of `WSB::remove`: shift every captured
sibling whose 0-based position exceeds the removed child's. -/
def shift_loop (fuel cidx layer_idx : Nat) :
    List (Nat × TaskId) → Store → Except Error Unit × Store
  | [], M => (.ok (), M)
  | (index, child_id) :: rest, M =>
    if cidx < index then
      match subtract_id fuel child_id layer_idx M with
      | (.error e, M1) => (.error e, M1)
      | (.ok _, M1) => shift_loop fuel cidx layer_idx rest M1
    else shift_loop fuel cidx layer_idx rest M

/-- `WSB::remove`. -/
def remove (task_id0 : TaskId) (M : Store) : Except Error Task × Store :=
  match lookupTask M task_id0 with
  | none => (.error (.TaskNotFound task_id0), M)
  | some t0 =>
    if 0 < t0.num_child then (.error (.TrunkCannotBeRemoved task_id0), M)
    else
      match remove_task_stats_from_tasks task_id0 M with
      | (.error e, M1) => (.error e, M1)
      | (.ok _, M1) =>
        match TaskId.parent task_id0 with
        | .error e => (.error e, M1)
        | .ok parent_id =>
          match lookupTask M1 parent_id with
          | none => (.error (.TaskNotFound parent_id), M1)
          | some parent0 =>
            let parent1 := { parent0 with num_child := parent0.num_child - 1 }
            let M2 := insertTask M1 parent_id parent1
            let parent_childs := TaskId.child_ids parent1.id (parent1.num_child + 1)
            let layer_idx := task_id0.length - 1
            match TaskId.child_idx task_id0 with
            | .error e => (.error e, M2)
            | .ok ci =>
              match lookupTask M2 task_id0 with
              | none => (.error (.TaskNotFound task_id0), M2)
              | some task =>
                let M3 := eraseKey M2 task_id0
                match shift_loop (maxKeyLen M3 + 1) (ci - 1) layer_idx
                    parent_childs.enum M3 with
                | (.error e, M4) => (.error e, M4)
                | (.ok _, M4) =>
                  (.ok task, eraseKey M4 (task_id0.set layer_idx parent_childs.length))

/-- `WSB::tasks`: the leaf tasks. -/
def tasks (M : Store) : List Task := (M.map Prod.snd).filter Task.is_leaf

/-- `WSB::done_tasks`: the leaf tasks with status `Done`. -/
def done_tasks (M : Store) : List Task :=
  (M.map Prod.snd).filter (fun t => t.is_leaf && decide (t.status = TaskStatus.Done))

/-- `WSB::completion_percentage`: done-task count over the TOTAL entry count of the
store (`tasks.len()` counts the root and every trunk as well). -/
def completion_percentage (M : Store) : Rat :=
  ((done_tasks M).length : Rat) / ((M.length : Nat) : Rat)

end WSB

/-! ### Properties of the store primitives -/

/-- The key list of a store. -/
def keys (M : Store) : List TaskId := M.map Prod.fst

/-- Key-uniqueness; every store the engine builds satisfies it. -/
def NodupKeys (M : Store) : Prop := (keys M).Nodup

theorem lookupTask_eq_none_iff {M : Store} {q : TaskId} :
    lookupTask M q = none ↔ q ∉ keys M := by
  induction M with
  | nil => simp [lookupTask, keys]
  | cons kv rest ih =>
    obtain ⟨k, t⟩ := kv
    by_cases h : k = q
    · subst h; simp [lookupTask, keys]
    · have h' : q ≠ k := fun hh => h hh.symm
      simpa [lookupTask, keys, h, h'] using ih

theorem lookupTask_ne_none_iff {M : Store} {q : TaskId} :
    lookupTask M q ≠ none ↔ q ∈ keys M := by
  rw [Ne, lookupTask_eq_none_iff, not_not]

theorem lookupTask_insert (M : Store) (k : TaskId) (t : Task) (q : TaskId) :
    lookupTask (insertTask M k t) q = if k = q then some t else lookupTask M q := by
  induction M with
  | nil =>
    by_cases h : k = q <;> simp [insertTask, lookupTask, h]
  | cons kv rest ih =>
    obtain ⟨k', t'⟩ := kv
    by_cases hk : k' = k
    · subst hk
      by_cases h : k' = q <;> simp [insertTask, lookupTask, h]
    · by_cases h : k' = q
      · subst h
        have : ¬ k = k' := fun hh => hk hh.symm
        simp [insertTask, lookupTask, hk, this]
      · simp [insertTask, lookupTask, hk, h, ih]

theorem lookupTask_erase (M : Store) (k : TaskId) (q : TaskId) :
    lookupTask (eraseKey M k) q = if k = q then none else lookupTask M q := by
  induction M with
  | nil => by_cases h : k = q <;> simp [eraseKey, lookupTask, h]
  | cons kv rest ih =>
    obtain ⟨k', t'⟩ := kv
    by_cases hk : k' = k
    · subst hk
      rw [show eraseKey ((k', t') :: rest) k' = eraseKey rest k' from by
        simp [eraseKey]]
      rw [ih]
      by_cases h : k' = q
      · simp [h]
      · simp [lookupTask, h]
    · rw [show eraseKey ((k', t') :: rest) k = (k', t') :: eraseKey rest k from by
        simp [eraseKey, hk]]
      by_cases h : k' = q
      · subst h
        have hkq : ¬ k = k' := fun hh => hk hh.symm
        simp [lookupTask, hkq]
      · simp [lookupTask, h, ih]

theorem eraseKey_of_not_mem {M : Store} {k : TaskId} (h : lookupTask M k = none) :
    eraseKey M k = M := by
  induction M with
  | nil => rfl
  | cons kv rest ih =>
    obtain ⟨k', t'⟩ := kv
    by_cases hk : k' = k
    · subst hk; simp [lookupTask] at h
    · simp [lookupTask, hk] at h
      simp [eraseKey, hk, ih h]

theorem mem_keys_insert {M : Store} {k q : TaskId} {t : Task}
    (h : q ∈ keys (insertTask M k t)) : q ∈ keys M ∨ q = k := by
  by_cases hqk : q = k
  · right; exact hqk
  · left
    have h1 : lookupTask (insertTask M k t) q ≠ none := lookupTask_ne_none_iff.mpr h
    rw [lookupTask_insert, if_neg (fun hh => hqk hh.symm)] at h1
    exact lookupTask_ne_none_iff.mp h1

theorem mem_keys_erase {M : Store} {k q : TaskId}
    (h : q ∈ keys (eraseKey M k)) : q ∈ keys M := by
  have h1 : lookupTask (eraseKey M k) q ≠ none := lookupTask_ne_none_iff.mpr h
  rw [lookupTask_erase] at h1
  by_cases hkq : k = q
  · simp [hkq] at h1
  · rw [if_neg hkq] at h1
    exact lookupTask_ne_none_iff.mp h1

theorem nodupKeys_insert {M : Store} (k : TaskId) (t : Task) (h : NodupKeys M) :
    NodupKeys (insertTask M k t) := by
  induction M with
  | nil => simp [insertTask, NodupKeys, keys]
  | cons kv rest ih =>
    obtain ⟨k', t'⟩ := kv
    simp only [NodupKeys, keys, List.map_cons, List.nodup_cons] at h
    by_cases hk : k' = k
    · subst hk
      simpa [insertTask, NodupKeys, keys] using h
    · have hrest := ih h.2
      simp only [insertTask, hk, if_false]
      simp only [NodupKeys, keys, List.map_cons, List.nodup_cons] at hrest ⊢
      refine ⟨?_, hrest⟩
      intro hmem
      rcases mem_keys_insert (show k' ∈ keys (insertTask rest k t) from hmem) with hm | hm
      · exact h.1 hm
      · exact hk hm

theorem nodupKeys_erase {M : Store} (k : TaskId) (h : NodupKeys M) :
    NodupKeys (eraseKey M k) := by
  induction M with
  | nil => simpa [eraseKey] using h
  | cons kv rest ih =>
    obtain ⟨k', t'⟩ := kv
    simp only [NodupKeys, keys, List.map_cons, List.nodup_cons] at h
    by_cases hk : k' = k
    · subst hk; simp only [eraseKey, if_pos rfl]; exact ih h.2
    · simp only [eraseKey, if_neg hk]
      have hrest := ih h.2
      simp only [NodupKeys, keys, List.map_cons, List.nodup_cons] at hrest ⊢
      exact ⟨fun hmem => h.1 (mem_keys_erase hmem), hrest⟩

theorem length_insert (M : Store) (k : TaskId) (t : Task) :
    (insertTask M k t).length =
      if lookupTask M k = none then M.length + 1 else M.length := by
  induction M with
  | nil => simp [insertTask, lookupTask]
  | cons kv rest ih =>
    obtain ⟨k', t'⟩ := kv
    by_cases hk : k' = k
    · subst hk; simp [insertTask, lookupTask]
    · simp only [insertTask, if_neg hk, lookupTask, if_neg hk, List.length_cons, ih]
      by_cases h0 : lookupTask rest k = none
      · simp [h0]
      · simp [h0]

theorem maxKeyLen_bound {M : Store} {q : TaskId} {t : Task}
    (h : lookupTask M q = some t) : q.length ≤ maxKeyLen M := by
  induction M with
  | nil => simp [lookupTask] at h
  | cons kv rest ih =>
    obtain ⟨k', t'⟩ := kv
    by_cases hk : k' = q
    · subst hk; simp [maxKeyLen]
    · simp only [lookupTask, if_neg hk] at h
      have := ih h
      simp only [maxKeyLen, List.foldr_cons] at *
      omega

theorem maxKeyLen_insert (M : Store) (k : TaskId) (t : Task) :
    maxKeyLen (insertTask M k t) ≤ max (maxKeyLen M) k.length := by
  induction M with
  | nil => simp [insertTask, maxKeyLen]
  | cons kv rest ih =>
    obtain ⟨k', t'⟩ := kv
    by_cases hk : k' = k
    · subst hk
      rw [show insertTask ((k', t') :: rest) k' t = (k', t) :: rest from by
        simp [insertTask]]
      simp only [maxKeyLen, List.foldr_cons]
      omega
    · simp only [insertTask, if_neg hk]
      simp only [maxKeyLen, List.foldr_cons] at ih ⊢
      omega

/-! ### Identifier prefix and path lemmas -/

theorem prefix_cases {a x : TaskId} (h : a <+: x) (hne : a ≠ x) :
    ∃ n r, x = a ++ n :: r := by
  obtain ⟨s, rfl⟩ := h
  cases s with
  | nil => exact absurd (by simp) hne
  | cons n r => exact ⟨n, r, rfl⟩

theorem concat_prefix_iff {a : TaskId} {n m : Nat} {r : List Nat} :
    a ++ [m] <+: a ++ n :: r ↔ m = n := by
  constructor
  · rintro ⟨s, hs⟩
    rw [List.append_assoc] at hs
    have h2 := List.append_cancel_left hs
    rw [List.singleton_append] at h2
    exact (List.cons_eq_cons.mp h2).1
  · rintro rfl
    exact ⟨r, by simp⟩

theorem prefix_same_length_eq {a b x : TaskId} (ha : a <+: x) (hb : b <+: x)
    (hl : a.length = b.length) : a = b := by
  rw [List.prefix_iff_eq_take] at ha hb
  rw [ha, hb, hl]

theorem mem_path_iff {id q : TaskId} : q ∈ TaskId.path id ↔ q <+: id := by
  simp only [TaskId.path, List.mem_cons, List.mem_map, List.mem_range]
  constructor
  · rintro (rfl | ⟨i, hi, rfl⟩)
    · exact List.nil_prefix
    · exact List.take_prefix _ _
  · intro h
    rcases Nat.eq_zero_or_pos q.length with h0 | hpos
    · left; exact List.eq_nil_of_length_eq_zero h0
    · right
      refine ⟨q.length - 1, ?_, ?_⟩
      · have := h.length_le; omega
      · have hq : q.length - 1 + 1 = q.length := by omega
        rw [hq]
        exact (List.prefix_iff_eq_take.mp h).symm

theorem path_nodup (id : TaskId) : (TaskId.path id).Nodup := by
  rw [TaskId.path, List.nodup_cons]
  constructor
  · intro hmem
    simp only [List.mem_map, List.mem_range] at hmem
    obtain ⟨i, hi, heq⟩ := hmem
    have := congrArg List.length heq
    simp only [List.length_take, List.length_nil] at this
    omega
  · refine List.Nodup.map_on ?_ (List.nodup_range _)
    intro i hi j hj heq
    simp only [List.mem_range] at hi hj
    have := congrArg List.length heq
    simp only [List.length_take] at this
    omega

theorem mem_path_self (id : TaskId) : id ∈ TaskId.path id :=
  mem_path_iff.mpr (List.prefix_refl id)

theorem path_concat (p : TaskId) (k : Nat) :
    TaskId.path (p ++ [k]) = TaskId.path p ++ [p ++ [k]] := by
  have h1 : List.map (fun i => (p ++ [k]).take (i + 1)) (List.range p.length)
      = List.map (fun i => p.take (i + 1)) (List.range p.length) := by
    apply List.map_congr_left
    intro i hi
    simp only [List.mem_range] at hi
    exact List.take_append_of_le_length (by omega)
  have h2 : (p ++ [k]).take (p.length + 1) = p ++ [k] := by
    rw [show p.length + 1 = (p ++ [k]).length from by simp, List.take_length]
  simp [TaskId.path, List.range_succ, h1, h2]

theorem setEntry_append (p : TaskId) (v : Nat) (r : List Nat) (a : Nat) :
    (p ++ v :: r).set p.length a = p ++ a :: r := by
  induction p with
  | nil => simp
  | cons x xs ih =>
    simp only [List.cons_append, List.length_cons, List.set, List.append_eq]
    rw [ih]

theorem getD_append_self (p : TaskId) (v : Nat) (r : List Nat) :
    (p ++ v :: r).getD p.length 0 = v := by
  induction p with
  | nil => simp
  | cons x xs ih =>
    simp only [List.cons_append, List.length_cons, List.getD_cons_succ]
    exact ih

theorem decEntry_append (p : TaskId) (v : Nat) (r : List Nat) :
    WSB.decEntry (p ++ v :: r) p.length = p ++ (v - 1) :: r := by
  rw [WSB.decEntry, getD_append_self, setEntry_append]

theorem maxKeyLen_erase (M : Store) (k : TaskId) :
    maxKeyLen (eraseKey M k) ≤ maxKeyLen M := by
  induction M with
  | nil => simp [eraseKey]
  | cons kv rest ih =>
    obtain ⟨k', t'⟩ := kv
    by_cases hk : k' = k
    · simp only [eraseKey, if_pos hk]
      simp only [maxKeyLen, List.foldr_cons] at *
      omega
    · simp only [eraseKey, if_neg hk]
      simp only [maxKeyLen, List.foldr_cons] at *
      omega

/-! ### Characterization of the path-walking loops -/

/-- Forget the status field (used to state that an operation changes nothing
but statuses). -/
def stripStatus (t : Task) : Task := { t with status := TaskStatus.InProgress }

theorem keys_insert_mem {M : Store} {q k : TaskId} {t : Task} (h : q ∈ keys M) :
    q ∈ keys (insertTask M k t) := by
  apply lookupTask_ne_none_iff.mp
  rw [lookupTask_insert]
  by_cases hk : k = q
  · simp [hk]
  · rw [if_neg hk]; exact lookupTask_ne_none_iff.mpr h

theorem apply_ids_spec (f : Task → Task) (l : List TaskId) (M : Store)
    (hnd : l.Nodup) (hpres : ∀ i ∈ l, i ∈ keys M) :
    (WSB.apply_ids f l M).1 = .ok () ∧
      ∀ q, lookupTask (WSB.apply_ids f l M).2 q =
        if q ∈ l then (lookupTask M q).map f else lookupTask M q := by
  induction l generalizing M with
  | nil => simp [WSB.apply_ids]
  | cons i rest ih =>
    obtain ⟨t, ht⟩ : ∃ t, lookupTask M i = some t := by
      have h1 := lookupTask_ne_none_iff.mpr (hpres i (by simp))
      cases h : lookupTask M i with
      | none => exact absurd h h1
      | some t => exact ⟨t, rfl⟩
    rw [List.nodup_cons] at hnd
    have hpres' : ∀ j ∈ rest, j ∈ keys (insertTask M i (f t)) := fun j hj =>
      keys_insert_mem (hpres j (List.mem_cons_of_mem _ hj))
    obtain ⟨hok, hchar⟩ := ih (insertTask M i (f t)) hnd.2 hpres'
    have hstep : WSB.apply_ids f (i :: rest) M
        = WSB.apply_ids f rest (insertTask M i (f t)) := by
      simp [WSB.apply_ids, ht]
    refine ⟨by rw [hstep]; exact hok, ?_⟩
    intro q
    rw [hstep, hchar q, lookupTask_insert]
    by_cases hq : q = i
    · subst hq
      simp [hnd.1, ht]
    · have hiq : ¬ i = q := fun hh => hq hh.symm
      by_cases hqr : q ∈ rest
      · simp [hq, hqr, hiq]
      · simp [hq, hqr, hiq]

theorem apply_ids_length (f : Task → Task) (l : List TaskId) (M : Store) :
    (WSB.apply_ids f l M).2.length = M.length := by
  induction l generalizing M with
  | nil => simp [WSB.apply_ids]
  | cons i rest ih =>
    cases h : lookupTask M i with
    | none => simp [WSB.apply_ids, h]
    | some t =>
      have hlen : (insertTask M i (f t)).length = M.length := by
        rw [length_insert, if_neg (by simp [h])]
      simp only [WSB.apply_ids, h]
      rw [ih, hlen]

theorem apply_ids_nodup (f : Task → Task) (l : List TaskId) {M : Store}
    (h : NodupKeys M) : NodupKeys (WSB.apply_ids f l M).2 := by
  induction l generalizing M with
  | nil => simpa [WSB.apply_ids] using h
  | cons i rest ih =>
    cases hl : lookupTask M i with
    | none => simpa [WSB.apply_ids, hl] using h
    | some t =>
      simp only [WSB.apply_ids, hl]
      exact ih (nodupKeys_insert _ _ h)

theorem done_walk_spec (l : List TaskId) (M : Store)
    (hpres : ∀ i ∈ l, i ∈ keys M) :
    (WSB.done_walk l M).1 = .ok () ∧
      (∀ q, q ∉ l → lookupTask (WSB.done_walk l M).2 q = lookupTask M q) ∧
      (∀ q, (lookupTask (WSB.done_walk l M).2 q).map stripStatus
          = (lookupTask M q).map stripStatus) ∧
      (∀ q, (lookupTask (WSB.done_walk l M).2 q).map Task.status
            = (lookupTask M q).map Task.status ∨
          (lookupTask (WSB.done_walk l M).2 q).map Task.status
            = some TaskStatus.Done) := by
  induction l generalizing M with
  | nil => simp [WSB.done_walk]
  | cons i rest ih =>
    by_cases hc : WSB.children_are_done i M
    · obtain ⟨t, ht⟩ : ∃ t, lookupTask M i = some t := by
        have h1 := lookupTask_ne_none_iff.mpr (hpres i (by simp))
        cases h : lookupTask M i with
        | none => exact absurd h h1
        | some t => exact ⟨t, rfl⟩
      set M1 := insertTask M i { t with status := TaskStatus.Done } with hM1
      have hpres' : ∀ j ∈ rest, j ∈ keys M1 := fun j hj =>
        keys_insert_mem (hpres j (List.mem_cons_of_mem _ hj))
      obtain ⟨hok, hout, hstrip, hstat⟩ := ih M1 hpres'
      have hstep : WSB.done_walk (i :: rest) M = WSB.done_walk rest M1 := by
        simp [WSB.done_walk, hc, ht, hM1]
      refine ⟨by rw [hstep]; exact hok, ?_, ?_, ?_⟩
      · intro q hq
        rw [List.mem_cons, not_or] at hq
        rw [hstep, hout q hq.2, hM1, lookupTask_insert,
          if_neg (fun hh => hq.1 hh.symm)]
      · intro q
        rw [hstep, hstrip q, hM1, lookupTask_insert]
        by_cases hqi : i = q
        · subst hqi; simp [ht, stripStatus]
        · rw [if_neg hqi]
      · intro q
        rw [hstep]
        rcases hstat q with h1 | h1
        · rw [h1, hM1, lookupTask_insert]
          by_cases hqi : i = q
          · subst hqi; right; simp [ht]
          · left; rw [if_neg hqi]
        · right; exact h1
    · obtain ⟨hok, hout, hstrip, hstat⟩ :=
        ih M (fun j hj => hpres j (List.mem_cons_of_mem _ hj))
      have hstep : WSB.done_walk (i :: rest) M = WSB.done_walk rest M := by
        simp [WSB.done_walk, hc]
      exact ⟨by rw [hstep]; exact hok,
        fun q hq => by rw [hstep]; exact hout q (fun hh => hq (List.mem_cons_of_mem _ hh)),
        fun q => by rw [hstep]; exact hstrip q,
        fun q => by rw [hstep]; exact hstat q⟩

theorem done_walk_length (l : List TaskId) (M : Store) :
    (WSB.done_walk l M).2.length = M.length := by
  induction l generalizing M with
  | nil => simp [WSB.done_walk]
  | cons i rest ih =>
    by_cases hc : WSB.children_are_done i M
    · cases ht : lookupTask M i with
      | none => simp [WSB.done_walk, hc, ht]
      | some t =>
        have hlen : (insertTask M i { t with status := TaskStatus.Done }).length
            = M.length := by
          rw [length_insert, if_neg (by simp [ht])]
        simp only [WSB.done_walk, hc, ht, if_true]
        rw [ih, hlen]
    · simp only [WSB.done_walk, hc, if_false]
      exact ih M

theorem done_walk_nodup (l : List TaskId) {M : Store} (h : NodupKeys M) :
    NodupKeys (WSB.done_walk l M).2 := by
  induction l generalizing M with
  | nil => simpa [WSB.done_walk] using h
  | cons i rest ih =>
    by_cases hc : WSB.children_are_done i M
    · cases ht : lookupTask M i with
      | none => simpa [WSB.done_walk, hc, ht] using h
      | some t =>
        simp only [WSB.done_walk, hc, ht, if_true]
        exact ih (nodupKeys_insert _ _ h)
    · simp only [WSB.done_walk, hc, if_false]
      exact ih h

/-! ### Setter specifications -/

theorem prefix_concat_cases {q p : TaskId} {k : Nat} (h : q <+: p ++ [k]) :
    q = p ++ [k] ∨ q <+: p := by
  have hlen := h.length_le
  simp only [List.length_append, List.length_cons, List.length_nil] at hlen
  by_cases heq : q.length = p.length + 1
  · left
    exact h.eq_of_length (by simpa using heq)
  · right
    have hle : q.length ≤ p.length := by omega
    have := List.prefix_iff_eq_take.mp h
    rw [List.take_append_of_le_length hle] at this
    rw [this]
    exact List.take_prefix _ _

theorem not_prefix_of_longer {a b : TaskId} (h : b.length < a.length) : ¬ a <+: b :=
  fun hp => absurd hp.length_le (by omega)

theorem concat_not_prefix_base (p : TaskId) (k : Nat) : ¬ p ++ [k] <+: p :=
  not_prefix_of_longer (by simp)

theorem set_planned_value_spec {M : Store} {p : TaskId} {k : Nat} {t : Task} (v : Rat)
    (ht : lookupTask M (p ++ [k]) = some t) (hleaf : t.num_child = 0)
    (hpres : ∀ q, q <+: p → q ∈ keys M) :
    (WSB.set_planned_value (p ++ [k]) v M).1 = .ok () ∧
      lookupTask (WSB.set_planned_value (p ++ [k]) v M).2 (p ++ [k])
        = some { t with planned_value := v } ∧
      (∀ q, q <+: p → lookupTask (WSB.set_planned_value (p ++ [k]) v M).2 q
        = (lookupTask M q).map (fun a =>
            { a with planned_value := a.planned_value + (v - t.planned_value) })) ∧
      (∀ q, ¬ q <+: p ++ [k] →
        lookupTask (WSB.set_planned_value (p ++ [k]) v M).2 q = lookupTask M q) := by
  have hpar : TaskId.parent (p ++ [k]) = .ok p := by
    simp [TaskId.parent]
  have htrunk : ({ t with planned_value := t.planned_value } : Task).is_trunk = false := by
    simp [Task.is_trunk, hleaf]
  set f : Task → Task :=
    fun a => { a with planned_value := a.planned_value + (v - t.planned_value) } with hf
  set M1 := insertTask M (p ++ [k]) { t with planned_value := v } with hM1
  have hpres1 : ∀ i ∈ TaskId.path p, i ∈ keys M1 := by
    intro i hi
    exact keys_insert_mem (hpres i (mem_path_iff.mp hi))
  obtain ⟨hok, hchar⟩ := apply_ids_spec f (TaskId.path p) M1 (path_nodup p) hpres1
  have hstep : WSB.set_planned_value (p ++ [k]) v M
      = WSB.apply_ids f (TaskId.path p) M1 := by
    rw [WSB.set_planned_value, hpar]
    simp only [ht]
    rw [if_neg (by simp [Task.is_trunk, hleaf])]
    rfl
  refine ⟨by rw [hstep]; exact hok, ?_, ?_, ?_⟩
  · rw [hstep, hchar]
    rw [if_neg (by
      intro hmem
      exact concat_not_prefix_base p k (mem_path_iff.mp hmem))]
    rw [hM1, lookupTask_insert, if_pos rfl]
  · intro q hq
    rw [hstep, hchar, if_pos (mem_path_iff.mpr hq), hM1, lookupTask_insert]
    rw [if_neg (by
      intro hh
      rw [← hh] at hq
      exact concat_not_prefix_base p k hq)]
  · intro q hq
    have hq1 : q ∉ TaskId.path p := by
      intro hmem
      exact hq ((mem_path_iff.mp hmem).trans ⟨[k], rfl⟩)
    have hq2 : ¬ (p ++ [k] = q) := by
      intro hh
      exact hq (hh ▸ List.prefix_refl _)
    rw [hstep, hchar, if_neg hq1, hM1, lookupTask_insert, if_neg hq2]

theorem set_actual_cost_spec {M : Store} {p : TaskId} {k : Nat} {t : Task} (c : Rat)
    (ht : lookupTask M (p ++ [k]) = some t) (hleaf : t.num_child = 0)
    (hpres : ∀ q, q <+: p → q ∈ keys M) :
    (WSB.set_actual_cost (p ++ [k]) c M).1 = .ok () ∧
      (lookupTask (WSB.set_actual_cost (p ++ [k]) c M).2 (p ++ [k])).map stripStatus
        = some (stripStatus { t with actual_cost := c }) ∧
      (∀ q, q <+: p → (lookupTask (WSB.set_actual_cost (p ++ [k]) c M).2 q).map stripStatus
        = (lookupTask M q).map (fun a =>
            stripStatus { a with actual_cost := a.actual_cost + (c - t.actual_cost) })) ∧
      (∀ q, ¬ q <+: p ++ [k] →
        lookupTask (WSB.set_actual_cost (p ++ [k]) c M).2 q = lookupTask M q) ∧
      (∀ q, (lookupTask (WSB.set_actual_cost (p ++ [k]) c M).2 q).map Task.status
            = (lookupTask M q).map Task.status ∨
          (lookupTask (WSB.set_actual_cost (p ++ [k]) c M).2 q).map Task.status
            = some TaskStatus.Done) := by
  have hpar : TaskId.parent (p ++ [k]) = .ok p := by
    simp [TaskId.parent]
  set f : Task → Task :=
    fun a => { a with actual_cost := a.actual_cost + (c - t.actual_cost) } with hf
  set M1 := insertTask M (p ++ [k]) { t with actual_cost := c } with hM1
  have hpres1 : ∀ i ∈ TaskId.path p, i ∈ keys M1 := by
    intro i hi
    exact keys_insert_mem (hpres i (mem_path_iff.mp hi))
  obtain ⟨hok, hchar⟩ := apply_ids_spec f (TaskId.path p) M1 (path_nodup p) hpres1
  set Mc := (WSB.apply_ids f (TaskId.path p) M1).2 with hMc
  -- the cost phase: pointwise description of Mc relative to M
  have hMc_self : lookupTask Mc (p ++ [k]) = some { t with actual_cost := c } := by
    rw [hMc, hchar]
    rw [if_neg (by
      intro hmem
      exact concat_not_prefix_base p k (mem_path_iff.mp hmem))]
    rw [hM1, lookupTask_insert, if_pos rfl]
  have hMc_anc : ∀ q, q <+: p → lookupTask Mc q = (lookupTask M q).map f := by
    intro q hq
    rw [hMc, hchar, if_pos (mem_path_iff.mpr hq), hM1, lookupTask_insert]
    rw [if_neg (by
      intro hh
      rw [← hh] at hq
      exact concat_not_prefix_base p k hq)]
  have hMc_out : ∀ q, ¬ q <+: p ++ [k] → lookupTask Mc q = lookupTask M q := by
    intro q hq
    have hq1 : q ∉ TaskId.path p := by
      intro hmem
      exact hq ((mem_path_iff.mp hmem).trans ⟨[k], rfl⟩)
    have hq2 : ¬ (p ++ [k] = q) := by
      intro hh
      exact hq (hh ▸ List.prefix_refl _)
    rw [hMc, hchar, if_neg hq1, hM1, lookupTask_insert, if_neg hq2]
  have hMc_stat : ∀ q, (lookupTask Mc q).map Task.status
      = (lookupTask M q).map Task.status := by
    intro q
    by_cases hq : q <+: p ++ [k]
    · rcases prefix_concat_cases hq with rfl | hq'
      · rw [hMc_self, ht]
        rfl
      · rw [hMc_anc q hq', Option.map_map]
        rfl
    · rw [hMc_out q hq]
  have hMc_keys : ∀ i ∈ (TaskId.path (p ++ [k])).reverse, i ∈ keys Mc := by
    intro i hi
    rw [List.mem_reverse] at hi
    apply lookupTask_ne_none_iff.mp
    rcases prefix_concat_cases (mem_path_iff.mp hi) with rfl | hq'
    · rw [hMc_self]; simp
    · rw [hMc_anc i hq']
      have := lookupTask_ne_none_iff.mpr (hpres i hq')
      cases hli : lookupTask M i with
      | none => exact absurd hli this
      | some u => simp
  obtain ⟨wok, wout, wstrip, wstat⟩ :=
    done_walk_spec (TaskId.path (p ++ [k])).reverse Mc hMc_keys
  have hstep : WSB.set_actual_cost (p ++ [k]) c M
      = WSB.done_walk (TaskId.path (p ++ [k])).reverse Mc := by
    rw [WSB.set_actual_cost, hpar]
    simp only [ht]
    rw [if_neg (by simp [Task.is_trunk, hleaf])]
    have : (WSB.apply_along_path p f M1).1 = Except.ok () := hok
    rw [WSB.apply_along_path] at this ⊢
    rcases hres : WSB.apply_ids f (TaskId.path p) M1 with ⟨r1, N⟩
    rw [hres] at this
    simp only at this
    subst this
    simp only [hMc, hres]
  refine ⟨by rw [hstep]; exact wok, ?_, ?_, ?_, ?_⟩
  · rw [hstep, wstrip, hMc_self]
    rfl
  · intro q hq
    rw [hstep, wstrip, hMc_anc q hq, Option.map_map]
    rfl
  · intro q hq
    have hq1 : q ∉ (TaskId.path (p ++ [k])).reverse := by
      rw [List.mem_reverse]
      intro hmem
      exact hq (mem_path_iff.mp hmem)
    rw [hstep, wout q hq1, hMc_out q hq]
  · intro q
    rcases wstat q with h1 | h1
    · left; rw [hstep, h1, hMc_stat]
    · right; rw [hstep, h1]

theorem stripStatus_eq_iff {a b : Task} :
    stripStatus a = stripStatus b ↔
      a.name = b.name ∧ a.id = b.id ∧ a.planned_value = b.planned_value ∧
        a.actual_cost = b.actual_cost ∧ a.num_child = b.num_child := by
  cases a; cases b
  simp [stripStatus, Task.mk.injEq]

theorem remove_task_stats_spec {M : Store} {p : TaskId} {k : Nat} {t : Task}
    (ht : lookupTask M (p ++ [k]) = some t) (hleaf : t.num_child = 0)
    (hpres : ∀ q, q <+: p → q ∈ keys M) :
    (WSB.remove_task_stats_from_tasks (p ++ [k]) M).1 = .ok () ∧
      (lookupTask (WSB.remove_task_stats_from_tasks (p ++ [k]) M).2 (p ++ [k])).map
          stripStatus
        = some (stripStatus { t with planned_value := 0, actual_cost := 0 }) ∧
      (∀ q, q <+: p →
        (lookupTask (WSB.remove_task_stats_from_tasks (p ++ [k]) M).2 q).map stripStatus
          = (lookupTask M q).map (fun a => stripStatus { a with
              planned_value := a.planned_value - t.planned_value,
              actual_cost := a.actual_cost - t.actual_cost })) ∧
      (∀ q, ¬ q <+: p ++ [k] →
        lookupTask (WSB.remove_task_stats_from_tasks (p ++ [k]) M).2 q
          = lookupTask M q) ∧
      (∀ q, (lookupTask (WSB.remove_task_stats_from_tasks (p ++ [k]) M).2 q).map
            Task.status = (lookupTask M q).map Task.status ∨
          (lookupTask (WSB.remove_task_stats_from_tasks (p ++ [k]) M).2 q).map
            Task.status = some TaskStatus.Done) ∧
      (∀ q, lookupTask (WSB.remove_task_stats_from_tasks (p ++ [k]) M).2 q = none
          ↔ lookupTask M q = none) := by
  obtain ⟨aok, aself, aanc, aout, astat⟩ := set_actual_cost_spec (t := t) 0 ht hleaf hpres
  set Ma := (WSB.set_actual_cost (p ++ [k]) 0 M).2 with hMa
  obtain ⟨t1, ht1, ht1s⟩ : ∃ t1, lookupTask Ma (p ++ [k]) = some t1 ∧
      stripStatus t1 = stripStatus { t with actual_cost := 0 } := by
    cases h : lookupTask Ma (p ++ [k]) with
    | none => rw [h] at aself; exact absurd aself (by simp)
    | some u =>
      rw [h] at aself
      exact ⟨u, rfl, by simpa using aself⟩
  obtain ⟨hn1, hi1, hp1, hc1, hnc1⟩ := stripStatus_eq_iff.mp ht1s
  have hpres_a : ∀ q, q <+: p → q ∈ keys Ma := by
    intro q hq
    apply lookupTask_ne_none_iff.mp
    have h2 := aanc q hq
    have h3 := lookupTask_ne_none_iff.mpr (hpres q hq)
    intro hcon
    rw [hcon] at h2
    cases h : lookupTask M q with
    | none => exact h3 h
    | some u => rw [h] at h2; exact absurd h2.symm (by simp)
  obtain ⟨bok, bself, banc, bout⟩ :=
    set_planned_value_spec (t := t1) 0 ht1 (by simpa [hleaf] using hnc1) hpres_a
  set Mb := (WSB.set_planned_value (p ++ [k]) 0 Ma).2 with hMb
  have hstep : WSB.remove_task_stats_from_tasks (p ++ [k]) M
      = WSB.set_planned_value (p ++ [k]) 0 Ma := by
    rw [WSB.remove_task_stats_from_tasks]
    rcases hres : WSB.set_actual_cost (p ++ [k]) 0 M with ⟨r1, N⟩
    have : r1 = Except.ok () := by rw [hres] at aok; exact aok
    subst this
    have : N = Ma := by rw [hMa, hres]
    subst this
    rfl
  -- statuses carried through the value phase unchanged
  have bstat : ∀ q, (lookupTask Mb q).map Task.status
      = (lookupTask Ma q).map Task.status := by
    intro q
    by_cases hq : q <+: p ++ [k]
    · rcases prefix_concat_cases hq with rfl | hq'
      · rw [bself, ht1]
        rfl
      · rw [banc q hq', Option.map_map]
        rfl
    · rw [bout q hq]
  refine ⟨by rw [hstep]; exact bok, ?_, ?_, ?_, ?_, ?_⟩
  · rw [hstep, ← hMb, bself]
    have hone : stripStatus { t1 with planned_value := 0 }
        = stripStatus { t with planned_value := 0, actual_cost := 0 } := by
      rw [stripStatus_eq_iff]
      exact ⟨hn1, hi1, rfl, by simpa using hc1, by simpa using hnc1⟩
    simpa using hone
  · intro q hq
    rw [hstep, ← hMb, banc q hq, Option.map_map]
    have hcomp : stripStatus ∘ (fun a : Task =>
          { a with planned_value := a.planned_value + (0 - t1.planned_value) })
        = (fun b : Task =>
            { b with planned_value := b.planned_value + (0 - t1.planned_value) })
          ∘ stripStatus := rfl
    rw [hcomp, ← Option.map_map, aanc q hq, Option.map_map]
    cases lookupTask M q with
    | none => rfl
    | some u =>
      have hpv : t1.planned_value = t.planned_value := by simpa using hp1
      simp only [Option.map_some', Option.some.injEq, Function.comp_apply, stripStatus]
      rw [Task.mk.injEq]
      exact ⟨rfl, rfl, by rw [hpv]; ring, by ring, rfl, rfl⟩
  · intro q hq
    rw [hstep, ← hMb, bout q hq, hMa]
    exact aout q hq
  · intro q
    rcases astat q with h1 | h1
    · left; rw [hstep, ← hMb, bstat, h1]
    · right; rw [hstep, ← hMb, bstat, h1]
  · intro q
    rw [hstep, ← hMb]
    by_cases hq : q <+: p ++ [k]
    · rcases prefix_concat_cases hq with rfl | hq'
      · rw [bself, ht]
        simp
      · have h2 := banc q hq'
        have h3 := aanc q hq'
        constructor
        · intro h
          rw [h] at h2
          by_contra hcon
          cases hm : lookupTask M q with
          | none => exact hcon hm
          | some u =>
            rw [hm] at h3
            cases ha : lookupTask Ma q with
            | none => rw [ha] at h3; exact absurd h3.symm (by simp)
            | some w => rw [ha] at h2; exact absurd h2.symm (by simp)
        · intro h
          rw [h] at h3
          cases ha : lookupTask Ma q with
          | none => rw [ha] at h2; simpa using h2
          | some w => rw [ha] at h3; exact absurd h3 (by simp)
    · rw [bout q hq, hMa, aout q hq]

/-! ### The subtree-shift algorithm: specification of subtract_id -/

/-- Increment the index at one position (left inverse of `WSB.decEntry` on
identifiers whose index there is positive); used to express the relabeling. -/
def incEntry (l : TaskId) (i : Nat) : TaskId := l.set i (l.getD i 0 + 1)

theorem incEntry_append (p : TaskId) (v : Nat) (r : List Nat) :
    incEntry (p ++ v :: r) p.length = p ++ (v + 1) :: r := by
  rw [incEntry, getD_append_self, setEntry_append]

theorem append_cons_inj {p : TaskId} {v w : Nat} {s s' : List Nat}
    (h : p ++ v :: s = p ++ w :: s') : v = w ∧ s = s' := by
  have h2 := List.append_cancel_left h
  exact ⟨(List.cons_eq_cons.mp h2).1, (List.cons_eq_cons.mp h2).2⟩

theorem prefix_decomp {p : TaskId} {v : Nat} {s : List Nat} {q : TaskId}
    (h : p ++ v :: s <+: q) : ∃ s', q = p ++ v :: s' ∧ s <+: s' := by
  obtain ⟨r, rfl⟩ := h
  exact ⟨s ++ r, by simp, ⟨r, rfl⟩⟩

theorem not_prefix_of_val_ne {p : TaskId} {v w : Nat} {s s' : List Nat} {q : TaskId}
    (hq : q = p ++ v :: s) (hvw : w ≠ v) : ¬ p ++ w :: s' <+: q := by
  intro hcon
  subst hq
  obtain ⟨s'', hq2, _⟩ := prefix_decomp hcon
  exact hvw (append_cons_inj hq2).1.symm

/-- The subtree of `c` is intact in `M`: `c` is present, ids match keys, every
present node's children are exactly `1..num_child`, and parents of present
nodes are present (all scoped to keys extending `c`). -/
structure SubtreeIntact (M : Store) (c : TaskId) : Prop where
  root_mem : lookupTask M c ≠ none
  id_eq : ∀ q t, c <+: q → lookupTask M q = some t → t.id = q
  children : ∀ q t, c <+: q → lookupTask M q = some t →
    ∀ n, lookupTask M (q ++ [n]) ≠ none ↔ 1 ≤ n ∧ n ≤ t.num_child
  closed : ∀ q n, c <+: q → lookupTask M (q ++ [n]) ≠ none → lookupTask M q ≠ none

theorem subtreeIntact_transfer {M M' : Store} {c : TaskId}
    (h : ∀ q, c <+: q → lookupTask M' q = lookupTask M q)
    (hs : SubtreeIntact M c) : SubtreeIntact M' c := by
  refine ⟨?_, ?_, ?_, ?_⟩
  · rw [h c (List.prefix_refl c)]; exact hs.root_mem
  · intro q t hq hl
    exact hs.id_eq q t hq (by rw [← h q hq]; exact hl)
  · intro q t hq hl n
    rw [h (q ++ [n]) (hq.trans ⟨[n], rfl⟩)]
    exact hs.children q t hq (by rw [← h q hq]; exact hl) n
  · intro q n hq hl
    rw [h q hq]
    exact hs.closed q n hq (by rw [← h (q ++ [n]) (hq.trans ⟨[n], rfl⟩)]; exact hl)

/-- In an intact subtree, any key below `c` that leaves the `1..num_child`
range at some step is absent. -/
theorem subtreeIntact_absent {M : Store} {c : TaskId} (hs : SubtreeIntact M c)
    {t : Task} (ht : lookupTask M c = some t) {i : Nat} (hi : ¬ (1 ≤ i ∧ i ≤ t.num_child))
    (r : List Nat) : lookupTask M (c ++ i :: r) = none := by
  induction r using List.reverseRecOn with
  | nil =>
    have := hs.children c t (List.prefix_refl c) ht i
    rw [show c ++ [i] = c ++ i :: ([] : List Nat) from rfl] at this
    by_contra hcon
    exact hi (this.mp hcon)
  | append_singleton r n ih =>
    by_contra hcon
    have h1 : lookupTask M (c ++ i :: r) ≠ none := by
      apply hs.closed (c ++ i :: r) n ⟨i :: r, rfl⟩
      rw [show (c ++ i :: r) ++ [n] = c ++ i :: (r ++ [n]) from by simp]
      exact hcon
    exact h1 ih

theorem mem_child_ids {c cid : TaskId} {n : Nat} :
    cid ∈ TaskId.child_ids c n ↔ ∃ i, 1 ≤ i ∧ i ≤ n ∧ cid = c ++ [i] := by
  simp only [TaskId.child_ids, List.mem_map]
  constructor
  · rintro ⟨i, hi, rfl⟩
    rw [List.mem_range'_1] at hi
    exact ⟨i, by omega, by omega, rfl⟩
  · rintro ⟨i, h1, h2, rfl⟩
    exact ⟨i, by rw [List.mem_range'_1]; omega, rfl⟩

theorem child_ids_nodup (c : TaskId) (n : Nat) : (TaskId.child_ids c n).Nodup := by
  refine List.Nodup.map_on ?_ (List.nodup_range' ..)
  intro i _ j _ heq
  simpa using List.append_cancel_left heq

theorem child_ids_length {c cid : TaskId} {n : Nat} (h : cid ∈ TaskId.child_ids c n) :
    cid.length = c.length + 1 := by
  obtain ⟨i, _, _, rfl⟩ := mem_child_ids.mp h
  simp

theorem child_ids_shape {p : TaskId} {v : Nat} {c1 : List Nat} {cid : TaskId} {n : Nat}
    (h : cid ∈ TaskId.child_ids (p ++ v :: c1) n) : ∃ s, cid = p ++ v :: s := by
  obtain ⟨i, _, _, rfl⟩ := mem_child_ids.mp h
  exact ⟨c1 ++ [i], by simp⟩

/-- Full behaviour of one `subtract_id` call with enough fuel on an intact
subtree rooted at `p ++ v :: c1` whose relabel-target space is empty: it
succeeds, empties the source space, fills the target space with the relabeled
tasks (id fields updated), and touches nothing else. -/
def SubtractIdSpec (fuel : Nat) : Prop :=
  ∀ (p : TaskId) (v : Nat) (c1 : List Nat) (M : Store) (L : Nat),
    1 ≤ v →
    SubtreeIntact M (p ++ v :: c1) →
    (∀ q, p ++ (v - 1) :: c1 <+: q → lookupTask M q = none) →
    (∀ q ∈ keys M, q.length ≤ L) →
    L + 1 ≤ fuel + (p ++ v :: c1).length →
    (WSB.subtract_id fuel (p ++ v :: c1) p.length M).1 = .ok () ∧
      (∀ q ∈ keys (WSB.subtract_id fuel (p ++ v :: c1) p.length M).2, q.length ≤ L) ∧
      (∀ q, p ++ v :: c1 <+: q →
        lookupTask (WSB.subtract_id fuel (p ++ v :: c1) p.length M).2 q = none) ∧
      (∀ q, p ++ (v - 1) :: c1 <+: q →
        lookupTask (WSB.subtract_id fuel (p ++ v :: c1) p.length M).2 q
          = (lookupTask M (incEntry q p.length)).map (fun u => { u with id := q })) ∧
      (∀ q, ¬ p ++ v :: c1 <+: q → ¬ p ++ (v - 1) :: c1 <+: q →
        lookupTask (WSB.subtract_id fuel (p ++ v :: c1) p.length M).2 q
          = lookupTask M q)

/-- Behaviour of the `subtract_children` fold over a list of same-depth sibling
subtree roots sharing the index `v` at the relabel position. -/
def SubtractChildrenSpec (fuel : Nat) : Prop :=
  ∀ (p : TaskId) (v : Nat) (cs : List TaskId) (len : Nat) (M : Store) (L : Nat),
    1 ≤ v →
    (∀ cid ∈ cs, ∃ s, cid = p ++ v :: s) →
    (∀ cid ∈ cs, cid.length = len) →
    cs.Nodup →
    (∀ cid ∈ cs, SubtreeIntact M cid) →
    (∀ cid ∈ cs, ∀ q, WSB.decEntry cid p.length <+: q → lookupTask M q = none) →
    (∀ q ∈ keys M, q.length ≤ L) →
    L + 1 ≤ fuel + len →
    (WSB.subtract_children fuel cs p.length M).1 = .ok () ∧
      (∀ q ∈ keys (WSB.subtract_children fuel cs p.length M).2, q.length ≤ L) ∧
      (∀ q, (∃ cid ∈ cs, cid <+: q) →
        lookupTask (WSB.subtract_children fuel cs p.length M).2 q = none) ∧
      (∀ q, (∃ cid ∈ cs, WSB.decEntry cid p.length <+: q) →
        lookupTask (WSB.subtract_children fuel cs p.length M).2 q
          = (lookupTask M (incEntry q p.length)).map (fun u => { u with id := q })) ∧
      (∀ q, ¬ (∃ cid ∈ cs, cid <+: q) →
        ¬ (∃ cid ∈ cs, WSB.decEntry cid p.length <+: q) →
        lookupTask (WSB.subtract_children fuel cs p.length M).2 q = lookupTask M q)

theorem append_cons_prefix_iff {p : TaskId} {v : Nat} {s s3 : List Nat} :
    p ++ v :: s <+: p ++ v :: s3 ↔ s <+: s3 := by
  constructor
  · rintro ⟨r, hr⟩
    rw [List.append_assoc] at hr
    have h2 := List.append_cancel_left hr
    rw [List.cons_append] at h2
    exact ⟨r, (List.cons_eq_cons.mp h2).2⟩
  · rintro ⟨r, rfl⟩
    exact ⟨r, by simp⟩

theorem subtract_children_step (fuel : Nat) (hP : SubtractIdSpec fuel) :
    SubtractChildrenSpec fuel := by
  intro p v cs
  induction cs with
  | nil =>
    intro len M L hv hshape hlen hnd hsub hfree hL hfuel
    refine ⟨by simp [WSB.subtract_children], ?_, by simp, by simp,
      fun q _ _ => by simp [WSB.subtract_children]⟩
    simpa [WSB.subtract_children] using hL
  | cons cid rest ih =>
    intro len M L hv hshape hlen hnd hsub hfree hL hfuel
    obtain ⟨s, rfl⟩ := hshape cid (by simp)
    have hlen0 : (p ++ v :: s).length = len := hlen _ (by simp)
    rw [List.nodup_cons] at hnd
    have hvne : ¬ (v - 1 = v) := by omega
    have hfreehead : ∀ q, p ++ (v - 1) :: s <+: q → lookupTask M q = none := by
      intro q hq
      apply hfree (p ++ v :: s) (by simp) q
      rw [decEntry_append]
      exact hq
    obtain ⟨ok1, hL1, hsrc1, htgt1, hels1⟩ :=
      hP p v s M L hv (hsub _ (by simp)) hfreehead hL (by rw [hlen0]; exact hfuel)
    rcases hres : WSB.subtract_id fuel (p ++ v :: s) p.length M with ⟨r1, M1⟩
    rw [hres] at ok1 hL1 hsrc1 htgt1 hels1
    simp only at ok1 hL1 hsrc1 htgt1 hels1
    subst ok1
    -- lookups inside the remaining siblings' source subtrees are untouched
    have hlen_eq : ∀ cid' ∈ rest, ∃ s', cid' = p ++ v :: s' ∧ s'.length = s.length := by
      intro cid' hc'
      obtain ⟨s', hcid'⟩ := hshape cid' (by simp [hc'])
      refine ⟨s', hcid', ?_⟩
      have h2 := hlen cid' (by simp [hc'])
      rw [hcid'] at h2
      rw [← hlen0] at h2
      simpa using h2
    have hhead_ne : ∀ cid' ∈ rest, p ++ v :: s ≠ cid' := by
      intro cid' hc' hcon
      exact hnd.1 (hcon ▸ hc')
    have huntouched : ∀ cid' ∈ rest, ∀ q, cid' <+: q →
        lookupTask M1 q = lookupTask M q := by
      intro cid' hc' q hq
      obtain ⟨s', hcid', hsl⟩ := hlen_eq cid' hc'
      obtain ⟨s'', hq2, _⟩ := prefix_decomp (hcid' ▸ hq)
      apply hels1
      · intro hcon
        have heq : p ++ v :: s = cid' :=
          prefix_same_length_eq hcon hq (by rw [hcid']; simp [hsl])
        exact hhead_ne cid' hc' heq
      · exact not_prefix_of_val_ne hq2 hvne
    have hsub1 : ∀ cid' ∈ rest, SubtreeIntact M1 cid' := fun cid' hc' =>
      subtreeIntact_transfer (huntouched cid' hc') (hsub cid' (by simp [hc']))
    have hfree1 : ∀ cid' ∈ rest, ∀ q, WSB.decEntry cid' p.length <+: q →
        lookupTask M1 q = none := by
      intro cid' hc' q hq
      obtain ⟨s', hcid', hsl⟩ := hlen_eq cid' hc'
      rw [hcid', decEntry_append] at hq
      obtain ⟨s'', hq2, _⟩ := prefix_decomp hq
      rw [hels1 q (not_prefix_of_val_ne hq2 (by omega)) ?notTgt]
      · exact hfree cid' (by simp [hc']) q (by rw [hcid', decEntry_append]; exact hq)
      case notTgt =>
        intro hcon
        have heq : p ++ (v - 1) :: s = p ++ (v - 1) :: s' :=
          prefix_same_length_eq hcon hq (by simp [hsl])
        have hss := (append_cons_inj heq).2
        exact hhead_ne cid' hc' (by rw [hcid', ← hss])
    obtain ⟨ok2, hL2, hsrc2, htgt2, hels2⟩ :=
      ih len M1 L hv (fun cid' hc' => hshape cid' (by simp [hc']))
        (fun cid' hc' => hlen cid' (by simp [hc'])) hnd.2 hsub1 hfree1 hL1 hfuel
    have hstep : WSB.subtract_children fuel ((p ++ v :: s) :: rest) p.length M
        = WSB.subtract_children fuel rest p.length M1 := by
      simp only [WSB.subtract_children, hres]
    refine ⟨by rw [hstep]; exact ok2, by rw [hstep]; exact hL2, ?_, ?_, ?_⟩
    · -- all source subtrees are emptied
      intro q hq
      rw [hstep]
      rcases hq with ⟨cid', hc', hpre⟩
      rcases List.mem_cons.mp hc' with rfl | hc'
      · -- the head subtree: unchanged by the rest of the fold
        obtain ⟨s'', hq2, _⟩ := prefix_decomp hpre
        rw [hels2 q ?h1 ?h2]
        · exact hsrc1 q hpre
        case h1 =>
          rintro ⟨cid2, hc2, hpre2⟩
          obtain ⟨s2, hcid2, hsl2⟩ := hlen_eq cid2 hc2
          have heq : p ++ v :: s = cid2 :=
            prefix_same_length_eq hpre hpre2 (by rw [hcid2]; simp [hsl2])
          exact hhead_ne cid2 hc2 heq
        case h2 =>
          rintro ⟨cid2, hc2, hpre2⟩
          obtain ⟨s2, hcid2, hsl2⟩ := hlen_eq cid2 hc2
          rw [hcid2, decEntry_append] at hpre2
          obtain ⟨s3, hq3, _⟩ := prefix_decomp hpre2
          rw [hq3] at hq2
          exact hvne (append_cons_inj hq2).1
      · exact hsrc2 q ⟨cid', hc', hpre⟩
    · -- all target subtrees hold the relabeled tasks
      intro q hq
      rw [hstep]
      rcases hq with ⟨cid', hc', hpre⟩
      rcases List.mem_cons.mp hc' with rfl | hc'
      · -- head target space: filled by the head call, untouched afterwards
        rw [decEntry_append] at hpre
        obtain ⟨s'', hq2, _⟩ := prefix_decomp hpre
        rw [hels2 q ?h3 ?h4]
        · exact htgt1 q hpre
        case h3 =>
          rintro ⟨cid2, hc2, hpre2⟩
          obtain ⟨s2, hcid2, hsl2⟩ := hlen_eq cid2 hc2
          rw [hcid2] at hpre2
          obtain ⟨s3, hq3, _⟩ := prefix_decomp hpre2
          rw [hq3] at hq2
          exact hvne (append_cons_inj hq2).1.symm
        case h4 =>
          rintro ⟨cid2, hc2, hpre2⟩
          obtain ⟨s2, hcid2, hsl2⟩ := hlen_eq cid2 hc2
          rw [hcid2, decEntry_append] at hpre2
          have heq : p ++ (v - 1) :: s = p ++ (v - 1) :: s2 :=
            prefix_same_length_eq hpre hpre2 (by simp [hsl2])
          have hss := (append_cons_inj heq).2
          exact hhead_ne cid2 hc2 (by rw [hcid2, ← hss])
      · -- a later target: the pullback source is outside the head's spaces
        obtain ⟨s2, hcid2, hsl2⟩ := hlen_eq cid' hc'
        rw [htgt2 q ⟨cid', hc', hpre⟩]
        rw [hcid2, decEntry_append] at hpre
        obtain ⟨s3, hq3, hs23⟩ := prefix_decomp hpre
        have hinc : incEntry q p.length = p ++ (v - 1 + 1) :: s3 := by
          rw [hq3, incEntry_append]
        have hv1 : v - 1 + 1 = v := by omega
        rw [hv1] at hinc
        rw [hels1 (incEntry q p.length) ?h5 ?h6]
        case h5 =>
          intro hcon
          rw [hinc] at hcon
          -- head and cid' would be equal-length prefixes of the same list
          have hs_pre : s <+: s3 := append_cons_prefix_iff.mp hcon
          have : s = s2 := prefix_same_length_eq hs_pre hs23 hsl2.symm
          exact hhead_ne cid' hc' (by rw [hcid2, this])
        case h6 =>
          exact not_prefix_of_val_ne hinc (by omega)
    · -- everything outside all source and target spaces is untouched
      intro q hq1 hq2
      rw [hstep]
      rw [hels2 q ?h7 ?h8, hels1 q ?h9 ?h10]
      case h7 =>
        rintro ⟨cid2, hc2, hpre2⟩
        exact hq1 ⟨cid2, by simp [hc2], hpre2⟩
      case h8 =>
        rintro ⟨cid2, hc2, hpre2⟩
        exact hq2 ⟨cid2, by simp [hc2], hpre2⟩
      case h9 =>
        intro hcon
        exact hq1 ⟨p ++ v :: s, by simp, hcon⟩
      case h10 =>
        intro hcon
        exact hq2 ⟨p ++ v :: s, by simp, by rw [decEntry_append]; exact hcon⟩

theorem subtract_id_step (fuel : Nat) (hQ : SubtractChildrenSpec fuel) :
    SubtractIdSpec (fuel + 1) := by
  intro p v c1 M L hv hsub hfree hL hfuel
  obtain ⟨t, ht⟩ : ∃ t, lookupTask M (p ++ v :: c1) = some t := by
    cases h : lookupTask M (p ++ v :: c1) with
    | none => exact absurd h hsub.root_mem
    | some t => exact ⟨t, rfl⟩
  have hvne : ¬ (v - 1 = v) := by omega
  have hvne' : ¬ (v = v - 1) := by omega
  have hv1 : v - 1 + 1 = v := by omega
  have hcc' : ¬ (p ++ v :: c1 = p ++ (v - 1) :: c1) := fun h =>
    hvne (append_cons_inj h).1.symm
  set M1 := insertTask (eraseKey M (p ++ v :: c1)) (p ++ (v - 1) :: c1)
    { t with id := p ++ (v - 1) :: c1 } with hM1
  have hstep : WSB.subtract_id (fuel + 1) (p ++ v :: c1) p.length M
      = WSB.subtract_children fuel (TaskId.child_ids (p ++ v :: c1) t.num_child)
          p.length M1 := by
    rw [WSB.subtract_id, ht]
    rw [show WSB.decEntry (p ++ v :: c1) p.length = p ++ (v - 1) :: c1 from
      decEntry_append p v c1]
  have hM1look : ∀ q, ¬ (q = p ++ v :: c1) → ¬ (q = p ++ (v - 1) :: c1) →
      lookupTask M1 q = lookupTask M q := by
    intro q h1 h2
    rw [hM1, lookupTask_insert, if_neg (fun hh => h2 hh.symm), lookupTask_erase,
      if_neg (fun hh => h1 hh.symm)]
  have hM1self : lookupTask M1 (p ++ (v - 1) :: c1)
      = some { t with id := p ++ (v - 1) :: c1 } := by
    rw [hM1, lookupTask_insert, if_pos rfl]
  have hM1old : lookupTask M1 (p ++ v :: c1) = none := by
    rw [hM1, lookupTask_insert, if_neg (fun hh => hcc' hh.symm), lookupTask_erase,
      if_pos rfl]
  -- hypotheses of the fold specification on the child list
  have hshape1 : ∀ cid ∈ TaskId.child_ids (p ++ v :: c1) t.num_child,
      ∃ s, cid = p ++ v :: s := fun cid hc => child_ids_shape hc
  have hlen1 : ∀ cid ∈ TaskId.child_ids (p ++ v :: c1) t.num_child,
      cid.length = (p ++ v :: c1).length + 1 := fun cid hc => child_ids_length hc
  have hsubtrees : ∀ cid ∈ TaskId.child_ids (p ++ v :: c1) t.num_child,
      SubtreeIntact M1 cid := by
    intro cid hc
    obtain ⟨i, hi1, hi2, rfl⟩ := mem_child_ids.mp hc
    have hpre : p ++ v :: c1 <+: (p ++ v :: c1) ++ [i] := ⟨[i], rfl⟩
    refine subtreeIntact_transfer (M := M) ?_ ?_
    · intro q hq
      apply hM1look
      · intro hh
        rw [hh] at hq
        exact not_prefix_of_longer (by simp) hq
      · intro hh
        have hq' : p ++ v :: (c1 ++ [i]) <+: q := by simpa using hq
        obtain ⟨s', hq2, _⟩ := prefix_decomp hq'
        rw [hh] at hq2
        exact hvne (append_cons_inj hq2).1
    · refine ⟨?_, ?_, ?_, ?_⟩
      · exact (hsub.children _ t (List.prefix_refl _) ht i).mpr ⟨hi1, hi2⟩
      · intro q u hq hu
        exact hsub.id_eq q u (hpre.trans hq) hu
      · intro q u hq hu n
        exact hsub.children q u (hpre.trans hq) hu n
      · intro q n hq h
        exact hsub.closed q n (hpre.trans hq) h
  have hfree1 : ∀ cid ∈ TaskId.child_ids (p ++ v :: c1) t.num_child,
      ∀ q, WSB.decEntry cid p.length <+: q → lookupTask M1 q = none := by
    intro cid hc q hq
    obtain ⟨i, hi1, hi2, rfl⟩ := mem_child_ids.mp hc
    have hdec : WSB.decEntry ((p ++ v :: c1) ++ [i]) p.length
        = p ++ (v - 1) :: (c1 ++ [i]) := by
      rw [show (p ++ v :: c1) ++ [i] = p ++ v :: (c1 ++ [i]) from by simp,
        decEntry_append]
    rw [hdec] at hq
    obtain ⟨s', hq2, hs'⟩ := prefix_decomp hq
    rw [hM1look q ?ha ?hb]
    · apply hfree
      rw [hq2]
      exact append_cons_prefix_iff.mpr ((List.prefix_append c1 [i]).trans hs')
    case ha =>
      intro hh
      rw [hh] at hq2
      exact hvne' (append_cons_inj hq2).1
    case hb =>
      intro hh
      rw [hh] at hq
      exact not_prefix_of_longer (by simp) hq
  have hL1 : ∀ q ∈ keys M1, q.length ≤ L := by
    intro q hqk
    rcases mem_keys_insert (hM1 ▸ hqk) with hm | rfl
    · exact hL q (mem_keys_erase hm)
    · have := hL (p ++ v :: c1) (lookupTask_ne_none_iff.mp (by rw [ht]; simp))
      simpa using this
  have hfuel1 : L + 1 ≤ fuel + ((p ++ v :: c1).length + 1) := by
    simp only [List.length_append, List.length_cons] at hfuel ⊢
    omega
  obtain ⟨ok2, hL2, hsrc2, htgt2, hels2⟩ :=
    hQ p v (TaskId.child_ids (p ++ v :: c1) t.num_child)
      ((p ++ v :: c1).length + 1) M1 L hv hshape1 hlen1 (child_ids_nodup _ _)
      hsubtrees hfree1 hL1 hfuel1
  refine ⟨by rw [hstep]; exact ok2, by rw [hstep]; exact hL2, ?_, ?_, ?_⟩
  · -- the whole source subtree is emptied
    intro q hq
    rw [hstep]
    obtain ⟨s', hq2, hs'⟩ := prefix_decomp hq
    by_cases hqc : s' = c1
    · -- q is the subtree root itself
      rw [hqc] at hq2
      rw [hels2 q ?hc1 ?hc2]
      · rw [hq2]; exact hM1old
      case hc1 =>
        rintro ⟨cid2, hc2, hpre2⟩
        rw [hq2] at hpre2
        have := hpre2.length_le
        rw [hlen1 cid2 hc2] at this
        simp at this
      case hc2 =>
        rintro ⟨cid2, hc2, hpre2⟩
        obtain ⟨i, hi1, hi2, rfl⟩ := mem_child_ids.mp hc2
        rw [hq2] at hpre2
        have := hpre2.length_le
        rw [show WSB.decEntry ((p ++ v :: c1) ++ [i]) p.length
            = p ++ (v - 1) :: (c1 ++ [i]) from by
          rw [show (p ++ v :: c1) ++ [i] = p ++ v :: (c1 ++ [i]) from by simp,
            decEntry_append]] at this
        simp at this
    · -- q lies strictly below the root
      have hneq : c1 ≠ s' := fun hh => hqc hh.symm
      obtain ⟨i, r, rfl⟩ := prefix_cases hs' hneq
      by_cases hir : 1 ≤ i ∧ i ≤ t.num_child
      · apply hsrc2 q
        refine ⟨(p ++ v :: c1) ++ [i], mem_child_ids.mpr ⟨i, hir.1, hir.2, rfl⟩, ?_⟩
        rw [hq2]
        have h5 : p ++ v :: (c1 ++ [i]) <+: p ++ v :: (c1 ++ i :: r) :=
          append_cons_prefix_iff.mpr ⟨r, by simp⟩
        have h6 : p ++ v :: c1 ++ [i] = p ++ v :: (c1 ++ [i]) := by simp
        rw [h6]
        exact h5
      · rw [hels2 q ?hc3 ?hc4]
        · rw [hM1look q ?hc5 ?hc6]
          · rw [hq2, show p ++ v :: (c1 ++ i :: r) = (p ++ v :: c1) ++ i :: r from by
              simp]
            exact subtreeIntact_absent hsub ht hir r
          case hc5 =>
            intro hh
            rw [hh] at hq2
            have := (append_cons_inj hq2).2
            simp at this
          case hc6 =>
            intro hh
            rw [hh] at hq2
            exact hvne (append_cons_inj hq2).1
        case hc3 =>
          rintro ⟨cid2, hc2, hpre2⟩
          obtain ⟨i', hi1', hi2', rfl⟩ := mem_child_ids.mp hc2
          rw [hq2] at hpre2
          have hpre3 : p ++ v :: (c1 ++ [i']) <+: p ++ v :: (c1 ++ i :: r) := by
            simpa using hpre2
          have := append_cons_prefix_iff.mp hpre3
          rw [concat_prefix_iff] at this
          subst this
          exact hir ⟨hi1', hi2'⟩
        case hc4 =>
          rintro ⟨cid2, hc2, hpre2⟩
          obtain ⟨i', hi1', hi2', rfl⟩ := mem_child_ids.mp hc2
          rw [show WSB.decEntry ((p ++ v :: c1) ++ [i']) p.length
              = p ++ (v - 1) :: (c1 ++ [i']) from by
            rw [show (p ++ v :: c1) ++ [i'] = p ++ v :: (c1 ++ [i']) from by simp,
              decEntry_append], hq2] at hpre2
          obtain ⟨s3, hq3, _⟩ := prefix_decomp hpre2
          exact hvne (append_cons_inj hq3).1.symm
  · -- the whole target subtree holds the relabeled tasks
    intro q hq
    rw [hstep]
    obtain ⟨s', hq2, hs'⟩ := prefix_decomp hq
    by_cases hqc : s' = c1
    · -- q is the relabeled root
      rw [hqc] at hq2
      rw [hels2 q ?hd1 ?hd2]
      · rw [hq2, hM1self, incEntry_append, hv1, ht]
        rfl
      case hd1 =>
        rintro ⟨cid2, hc2, hpre2⟩
        obtain ⟨i', hi1', hi2', rfl⟩ := mem_child_ids.mp hc2
        rw [hq2] at hpre2
        have hpre3 : p ++ v :: (c1 ++ [i']) <+: p ++ (v - 1) :: c1 := by
          simpa using hpre2
        obtain ⟨s3, hq3, _⟩ := prefix_decomp hpre3
        exact hvne (append_cons_inj hq3).1
      case hd2 =>
        rintro ⟨cid2, hc2, hpre2⟩
        obtain ⟨i', hi1', hi2', rfl⟩ := mem_child_ids.mp hc2
        rw [show WSB.decEntry ((p ++ v :: c1) ++ [i']) p.length
            = p ++ (v - 1) :: (c1 ++ [i']) from by
          rw [show (p ++ v :: c1) ++ [i'] = p ++ v :: (c1 ++ [i']) from by simp,
            decEntry_append], hq2] at hpre2
        have := hpre2.length_le
        simp at this
    · have hneq : c1 ≠ s' := fun hh => hqc hh.symm
      obtain ⟨i, r, rfl⟩ := prefix_cases hs' hneq
      have hqform : q = (p ++ (v - 1) :: c1) ++ i :: r := by rw [hq2]; simp
      have hinc : incEntry q p.length = p ++ v :: (c1 ++ i :: r) := by
        rw [hq2, incEntry_append, hv1]
      by_cases hir : 1 ≤ i ∧ i ≤ t.num_child
      · rw [htgt2 q ?he1]
        · rw [hinc, hM1look (p ++ v :: (c1 ++ i :: r)) ?he2 ?he3]
          case he2 =>
            intro hh
            have := (append_cons_inj hh).2
            simp at this
          case he3 =>
            intro hh
            exact hvne' (append_cons_inj hh).1
        case he1 =>
          refine ⟨(p ++ v :: c1) ++ [i], mem_child_ids.mpr ⟨i, hir.1, hir.2, rfl⟩, ?_⟩
          rw [show WSB.decEntry ((p ++ v :: c1) ++ [i]) p.length
              = p ++ (v - 1) :: (c1 ++ [i]) from by
            rw [show (p ++ v :: c1) ++ [i] = p ++ v :: (c1 ++ [i]) from by simp,
              decEntry_append], hq2]
          exact append_cons_prefix_iff.mpr ⟨r, by simp⟩
      · rw [hels2 q ?hf1 ?hf2]
        · rw [hM1look q ?hf3 ?hf4]
          · rw [hfree q (by rw [hq2]; exact append_cons_prefix_iff.mpr ⟨i :: r, rfl⟩)]
            rw [hinc, show p ++ v :: (c1 ++ i :: r) = (p ++ v :: c1) ++ i :: r from by
              simp]
            rw [subtreeIntact_absent hsub ht hir r]
            rfl
          case hf3 =>
            intro hh
            rw [hh] at hq2
            exact hvne' (append_cons_inj hq2).1
          case hf4 =>
            intro hh
            rw [hh] at hq2
            have := (append_cons_inj hq2).2
            simp at this
        case hf1 =>
          rintro ⟨cid2, hc2, hpre2⟩
          obtain ⟨i', hi1', hi2', rfl⟩ := mem_child_ids.mp hc2
          rw [hq2] at hpre2
          have hpre3 : p ++ v :: (c1 ++ [i']) <+: p ++ (v - 1) :: (c1 ++ i :: r) := by
            simpa using hpre2
          obtain ⟨s3, hq3, _⟩ := prefix_decomp hpre3
          exact hvne (append_cons_inj hq3).1
        case hf2 =>
          rintro ⟨cid2, hc2, hpre2⟩
          obtain ⟨i', hi1', hi2', rfl⟩ := mem_child_ids.mp hc2
          rw [show WSB.decEntry ((p ++ v :: c1) ++ [i']) p.length
              = p ++ (v - 1) :: (c1 ++ [i']) from by
            rw [show (p ++ v :: c1) ++ [i'] = p ++ v :: (c1 ++ [i']) from by simp,
              decEntry_append], hq2] at hpre2
          have hpre3 : c1 ++ [i'] <+: c1 ++ i :: r := by
            have := append_cons_prefix_iff.mp hpre2
            exact this
          rw [concat_prefix_iff] at hpre3
          subst hpre3
          exact hir ⟨hi1', hi2'⟩
  · -- everything else untouched
    intro q hq1 hq2
    rw [hstep]
    rw [hels2 q ?hg1 ?hg2]
    · apply hM1look q
      · intro hh; exact hq1 (hh ▸ List.prefix_refl _)
      · intro hh; exact hq2 (hh ▸ List.prefix_refl _)
    case hg1 =>
      rintro ⟨cid2, hc2, hpre2⟩
      obtain ⟨i', _, _, rfl⟩ := mem_child_ids.mp hc2
      exact hq1 ((List.prefix_append (p ++ v :: c1) [i']).trans hpre2)
    case hg2 =>
      rintro ⟨cid2, hc2, hpre2⟩
      obtain ⟨i', _, _, rfl⟩ := mem_child_ids.mp hc2
      rw [show WSB.decEntry ((p ++ v :: c1) ++ [i']) p.length
          = p ++ (v - 1) :: (c1 ++ [i']) from by
        rw [show (p ++ v :: c1) ++ [i'] = p ++ v :: (c1 ++ [i']) from by simp,
          decEntry_append]] at hpre2
      apply hq2
      refine List.IsPrefix.trans ?_ hpre2
      exact append_cons_prefix_iff.mpr (List.prefix_append c1 [i'])

theorem subtractIdSpec_zero : SubtractIdSpec 0 := by
  intro p v c1 M L hv hsub hfree hL hfuel
  exfalso
  have h1 := hL (p ++ v :: c1) (lookupTask_ne_none_iff.mp hsub.root_mem)
  omega

theorem subtractIdSpec_all : ∀ f, SubtractIdSpec f := by
  intro f
  induction f with
  | zero => exact subtractIdSpec_zero
  | succ n ih => exact subtract_id_step n (subtract_children_step n ih)

theorem subtract_children_nodup_of (f : Nat)
    (hA : ∀ c d M, NodupKeys M → NodupKeys (WSB.subtract_id f c d M).2) :
    ∀ cs d M, NodupKeys M → NodupKeys (WSB.subtract_children f cs d M).2 := by
  intro cs
  induction cs with
  | nil => intro d M h; simpa [WSB.subtract_children] using h
  | cons c rest ih =>
    intro d M h
    rcases hres : WSB.subtract_id f c d M with ⟨r1, M1⟩
    have h1 : NodupKeys M1 := by
      have := hA c d M h
      rw [hres] at this
      exact this
    cases r1 with
    | error e => simpa [WSB.subtract_children, hres] using h1
    | ok u =>
      simp only [WSB.subtract_children, hres]
      exact ih d M1 h1

theorem subtract_id_nodup : ∀ f c d M, NodupKeys M →
    NodupKeys (WSB.subtract_id f c d M).2 := by
  intro f
  induction f with
  | zero => intro c d M h; simpa [WSB.subtract_id] using h
  | succ n ih =>
    intro c d M h
    cases hl : lookupTask M c with
    | none => simpa [WSB.subtract_id, hl] using h
    | some t =>
      simp only [WSB.subtract_id, hl]
      exact subtract_children_nodup_of n ih _ _ _
        (nodupKeys_insert _ _ (nodupKeys_erase _ h))

theorem shift_loop_nodup (fuel cidx d : Nat) :
    ∀ es M, NodupKeys M → NodupKeys (WSB.shift_loop fuel cidx d es M).2 := by
  intro es
  induction es with
  | nil => intro M h; simpa [WSB.shift_loop] using h
  | cons e rest ih =>
    intro M h
    obtain ⟨index, cid⟩ := e
    by_cases hc : cidx < index
    · rcases hres : WSB.subtract_id fuel cid d M with ⟨r1, M1⟩
      have h1 : NodupKeys M1 := by
        have := subtract_id_nodup fuel cid d M h
        rw [hres] at this
        exact this
      cases r1 with
      | error e => simpa [WSB.shift_loop, hc, hres] using h1
      | ok u =>
        simp only [WSB.shift_loop, hc, if_true, hres]
        exact ih M1 h1
    · simp only [WSB.shift_loop, hc, if_false]
      exact ih M h

theorem shift_loop_skip (fuel cidx d : Nat) :
    ∀ es es2 (M : Store), (∀ pr ∈ es, ¬ cidx < pr.1) →
      WSB.shift_loop fuel cidx d (es ++ es2) M = WSB.shift_loop fuel cidx d es2 M := by
  intro es
  induction es with
  | nil => intro es2 M _; rfl
  | cons e rest ih =>
    intro es2 M h
    obtain ⟨index, cid⟩ := e
    have := h (index, cid) (by simp)
    simp only [List.cons_append, WSB.shift_loop, if_neg this]
    exact ih es2 M (fun pr hpr => h pr (by simp [hpr]))

theorem child_ids_enum (p : TaskId) (m : Nat) :
    (TaskId.child_ids p m).enum = (List.range' 0 m).map (fun e => (e, p ++ [e + 1])) := by
  induction m with
  | zero => simp [TaskId.child_ids]
  | succ n ih =>
    have h1 : TaskId.child_ids p (n + 1) = TaskId.child_ids p n ++ [p ++ [n + 1]] := by
      rw [TaskId.child_ids, TaskId.child_ids, List.range'_1_concat]
      simp [Nat.add_comm]
    have h2 : (TaskId.child_ids p n).length = n := by
      simp [TaskId.child_ids]
    rw [h1, List.enum_append, ih, h2, List.enumFrom_singleton,
      List.range'_1_concat, List.map_append]
    simp

theorem singleton_slot_eq {p : TaskId} {a b : Nat} {q : TaskId}
    (ha : p ++ [a] <+: q) (hb : p ++ [b] <+: q) : a = b := by
  have h := prefix_same_length_eq ha hb (by simp)
  exact (append_cons_inj h).1

/-- The shift loop of `remove`, restricted to the suffix of siblings after the
removed index: it slides every later subtree one slot down, in order, leaving
the highest slot empty and everything outside the affected slots unchanged. -/
theorem shift_loop_chain (fuel k : Nat) (p : TaskId) (hk : 1 ≤ k) :
    ∀ (n f0 : Nat) (N : Store) (L : Nat), k ≤ f0 →
    (∀ i, i < n → SubtreeIntact N (p ++ [f0 + i + 1])) →
    (∀ q, p ++ [f0] <+: q → lookupTask N q = none) →
    (∀ q ∈ keys N, q.length ≤ L) →
    L + 1 ≤ fuel + (p.length + 1) →
    (WSB.shift_loop fuel (k - 1) p.length
        ((List.range' f0 n).map (fun e => (e, p ++ [e + 1]))) N).1 = .ok () ∧
      (∀ q ∈ keys (WSB.shift_loop fuel (k - 1) p.length
          ((List.range' f0 n).map (fun e => (e, p ++ [e + 1]))) N).2, q.length ≤ L) ∧
      (∀ q, (∃ i, i < n ∧ p ++ [f0 + i] <+: q) →
        lookupTask (WSB.shift_loop fuel (k - 1) p.length
            ((List.range' f0 n).map (fun e => (e, p ++ [e + 1]))) N).2 q
          = (lookupTask N (incEntry q p.length)).map (fun u => { u with id := q })) ∧
      (∀ q, p ++ [f0 + n] <+: q →
        lookupTask (WSB.shift_loop fuel (k - 1) p.length
            ((List.range' f0 n).map (fun e => (e, p ++ [e + 1]))) N).2 q = none) ∧
      (∀ q, (∀ i, i ≤ n → ¬ p ++ [f0 + i] <+: q) →
        lookupTask (WSB.shift_loop fuel (k - 1) p.length
            ((List.range' f0 n).map (fun e => (e, p ++ [e + 1]))) N).2 q
          = lookupTask N q) := by
  intro n
  induction n with
  | zero =>
    intro f0 N L hf0 hsrc hfree hL hfuel
    have hnil : (List.range' f0 0).map (fun e => (e, p ++ [e + 1]))
        = ([] : List (Nat × TaskId)) := by simp
    rw [hnil]
    exact ⟨rfl, hL, by rintro q ⟨i, hi, _⟩; omega,
      fun q hq => hfree q (by simpa using hq), fun q _ => rfl⟩
  | succ n ih =>
    intro f0 N L hf0 hsrc hfree hL hfuel
    have hcond : k - 1 < f0 := by omega
    have hsubhead : SubtreeIntact N (p ++ (f0 + 1) :: []) := by
      have := hsrc 0 (by omega)
      simpa using this
    obtain ⟨ok1, hL1, hsrc1, htgt1, hels1⟩ :=
      subtractIdSpec_all fuel p (f0 + 1) [] N L (by omega) hsubhead
        (by intro q hq; exact hfree q (by simpa using hq))
        hL (by simp only [List.length_append, List.length_cons, List.length_nil]; omega)
    rcases hres : WSB.subtract_id fuel (p ++ [f0 + 1]) p.length N with ⟨r1, N1⟩
    rw [hres] at ok1 hL1 hsrc1 htgt1 hels1
    simp only at ok1 hL1 hsrc1 htgt1 hels1
    subst ok1
    -- head source slot `f0+1` is emptied; target slot `f0` is filled
    have hs1 : ∀ q, p ++ [f0 + 1] <+: q → lookupTask N1 q = none := fun q hq =>
      hsrc1 q (by simpa using hq)
    have ht1 : ∀ q, p ++ [f0] <+: q → lookupTask N1 q
        = (lookupTask N (incEntry q p.length)).map (fun u => { u with id := q }) := by
      intro q hq
      apply htgt1 q
      simpa using hq
    have he1 : ∀ q, ¬ p ++ [f0 + 1] <+: q → ¬ p ++ [f0] <+: q →
        lookupTask N1 q = lookupTask N q := by
      intro q h1 h2
      exact hels1 q (by simpa using h1) (by simpa using h2)
    have hsrc' : ∀ i, i < n → SubtreeIntact N1 (p ++ [f0 + 1 + i + 1]) := by
      intro i hi
      have harith : f0 + 1 + i + 1 = f0 + (i + 1) + 1 := by omega
      rw [harith]
      refine subtreeIntact_transfer (M := N) ?_ (hsrc (i + 1) (by omega))
      intro q hq
      obtain ⟨s, hq2, _⟩ := prefix_decomp hq
      apply he1
      · exact not_prefix_of_val_ne hq2 (by omega)
      · exact not_prefix_of_val_ne hq2 (by omega)
    obtain ⟨ok2, hL2, htgtA, hnoneB, helsC⟩ :=
      ih (f0 + 1) N1 L (by omega) hsrc' hs1 hL1 hfuel
    have hstep : WSB.shift_loop fuel (k - 1) p.length
        ((List.range' f0 (n + 1)).map (fun e => (e, p ++ [e + 1]))) N
        = WSB.shift_loop fuel (k - 1) p.length
            ((List.range' (f0 + 1) n).map (fun e => (e, p ++ [e + 1]))) N1 := by
      rw [List.range'_succ, List.map_cons]
      simp only [WSB.shift_loop, if_pos hcond, hres]
    refine ⟨by rw [hstep]; exact ok2, by rw [hstep]; exact hL2, ?_, ?_, ?_⟩
    · -- target slots f0 .. f0+n
      intro q hq
      rw [hstep]
      obtain ⟨i, hi, hpre⟩ := hq
      rcases Nat.eq_zero_or_pos i with rfl | hipos
      · -- slot f0: filled by the head call, untouched by the rest
        rw [helsC q ?ha1]
        · rw [ht1 q (by simpa using hpre)]
        case ha1 =>
          intro j hj hcon
          have := singleton_slot_eq hcon hpre
          omega
      · -- slots f0+i with i ≥ 1: later shifts, pullback source untouched by head
        obtain ⟨s, hq2, _⟩ := prefix_decomp hpre
        rw [htgtA q ⟨i - 1, by omega, by
          have harith : f0 + 1 + (i - 1) = f0 + i := by omega
          rw [harith]; exact hpre⟩]
        have hinc : incEntry q p.length = p ++ (f0 + i + 1) :: s := by
          rw [hq2, incEntry_append]
        rw [hinc, he1 (p ++ (f0 + i + 1) :: s) ?ha2 ?ha3]
        case ha2 =>
          exact not_prefix_of_val_ne rfl (by omega)
        case ha3 =>
          exact not_prefix_of_val_ne rfl (by omega)
    · -- the highest slot f0+n+1 is empty
      intro q hq
      rw [hstep]
      apply hnoneB q
      have harith : f0 + 1 + n = f0 + (n + 1) := by omega
      rw [harith]
      exact hq
    · -- all other identifiers untouched
      intro q hq
      rw [hstep]
      rw [helsC q (fun i hi => by
        have harith : f0 + 1 + i = f0 + (i + 1) := by omega
        rw [harith]
        exact hq (i + 1) (by omega))]
      exact he1 q (hq 1 (by omega)) (hq 0 (by omega))

/-! ### The store invariant -/

/-- Structural invariant of the task store (spec §3): unique keys, root present,
id fields match keys, every present non-root key's parent is present, and the
children of every present task occupy exactly the indices `1..num_child`. -/
structure Inv (M : Store) : Prop where
  nodup : NodupKeys M
  root_mem : lookupTask M [] ≠ none
  id_eq : ∀ q t, lookupTask M q = some t → t.id = q
  children : ∀ q t, lookupTask M q = some t →
    ∀ n, lookupTask M (q ++ [n]) ≠ none ↔ 1 ≤ n ∧ n ≤ t.num_child
  closed : ∀ q n, lookupTask M (q ++ [n]) ≠ none → lookupTask M q ≠ none

theorem lookup_some_of_mem_keys {M : Store} {q : TaskId} (h : q ∈ keys M) :
    ∃ t, lookupTask M q = some t := by
  have h1 := lookupTask_ne_none_iff.mpr h
  cases hl : lookupTask M q with
  | none => exact absurd hl h1
  | some t => exact ⟨t, rfl⟩

theorem keys_length_bound (M : Store) :
    ∀ q ∈ keys M, q.length ≤ maxKeyLen M := by
  intro q hq
  obtain ⟨t, ht⟩ := lookup_some_of_mem_keys hq
  exact maxKeyLen_bound ht

theorem Inv.subtree {M : Store} (hInv : Inv M) {x : TaskId}
    (hx : lookupTask M x ≠ none) : SubtreeIntact M x :=
  ⟨hx, fun q t _ => hInv.id_eq q t, fun q t _ => hInv.children q t,
    fun q n _ => hInv.closed q n⟩

theorem Inv.prefix_present {M : Store} (hInv : Inv M) :
    ∀ {x q : TaskId}, q <+: x → lookupTask M x ≠ none → lookupTask M q ≠ none := by
  rintro x q ⟨r, rfl⟩ h
  induction r using List.reverseRecOn with
  | nil => simpa using h
  | append_singleton r n ih =>
    apply ih
    apply hInv.closed (q ++ r) n
    rw [show (q ++ r) ++ [n] = q ++ (r ++ [n]) from by simp]
    exact h

theorem Inv.absent_below {M : Store} (hInv : Inv M) {x : TaskId} {tx : Task}
    (hx : lookupTask M x = some tx) {n : Nat} (hn : ¬ (1 ≤ n ∧ n ≤ tx.num_child))
    (r : List Nat) : lookupTask M (x ++ n :: r) = none :=
  subtreeIntact_absent (hInv.subtree (by rw [hx]; simp)) hx hn r

theorem child_ids_len (p : TaskId) (m : Nat) : (TaskId.child_ids p m).length = m := by
  simp [TaskId.child_ids]

/-- Full behaviour of a successful `WSB::remove` of a leaf `p ++ [k]` on an
invariant store: aggregates of the ancestors shrink by the leaf's, the parent
loses one child, the subtrees at indices above `k` slide down one slot (ids
relabeled), the highest slot empties, everything else is untouched, and
statuses only ever move to `Done`, only on the ancestor path. -/
theorem remove_spec {M : Store} {p : TaskId} {k : Nat} {t : Task}
    (hInv : Inv M) (ht : lookupTask M (p ++ [k]) = some t) (hleaf : t.num_child = 0) :
    ∃ (u : Task) (π : Task),
      lookupTask M p = some π ∧ 1 ≤ k ∧ k ≤ π.num_child ∧
      (WSB.remove (p ++ [k]) M).1 = .ok u ∧
      stripStatus u = stripStatus { t with planned_value := 0, actual_cost := 0 } ∧
      (lookupTask (WSB.remove (p ++ [k]) M).2 p).map stripStatus
        = some (stripStatus { π with
            planned_value := π.planned_value - t.planned_value,
            actual_cost := π.actual_cost - t.actual_cost,
            num_child := π.num_child - 1 }) ∧
      (∀ q, q <+: p → q ≠ p →
        (lookupTask (WSB.remove (p ++ [k]) M).2 q).map stripStatus
          = (lookupTask M q).map (fun a => stripStatus { a with
              planned_value := a.planned_value - t.planned_value,
              actual_cost := a.actual_cost - t.actual_cost })) ∧
      (∀ j r, k ≤ j → j + 1 ≤ π.num_child →
        lookupTask (WSB.remove (p ++ [k]) M).2 (p ++ j :: r)
          = (lookupTask M (p ++ (j + 1) :: r)).map
              (fun w => { w with id := p ++ j :: r })) ∧
      (∀ j r, π.num_child ≤ j →
        lookupTask (WSB.remove (p ++ [k]) M).2 (p ++ j :: r) = none) ∧
      (∀ j r, j < k →
        lookupTask (WSB.remove (p ++ [k]) M).2 (p ++ j :: r)
          = lookupTask M (p ++ j :: r)) ∧
      (∀ q, ¬ q <+: p → ¬ p <+: q →
        lookupTask (WSB.remove (p ++ [k]) M).2 q = lookupTask M q) ∧
      (∀ q, q <+: p →
        (lookupTask (WSB.remove (p ++ [k]) M).2 q).map Task.status
            = (lookupTask M q).map Task.status ∨
          (lookupTask (WSB.remove (p ++ [k]) M).2 q).map Task.status
            = some TaskStatus.Done) := by
  have htne : lookupTask M (p ++ [k]) ≠ none := by rw [ht]; simp
  obtain ⟨π, hπ⟩ : ∃ π, lookupTask M p = some π := by
    have h1 := hInv.closed p k htne
    cases hl : lookupTask M p with
    | none => exact absurd hl h1
    | some π => exact ⟨π, rfl⟩
  have hk : 1 ≤ k ∧ k ≤ π.num_child := (hInv.children p π hπ k).mp htne
  have hm1 : 1 ≤ π.num_child := le_trans hk.1 hk.2
  -- phase 1: zero the leaf's aggregates
  have hpres : ∀ q, q <+: p → q ∈ keys M := fun q hq =>
    lookupTask_ne_none_iff.mp (hInv.prefix_present (hq.trans ⟨[k], rfl⟩) htne)
  obtain ⟨sok, sself, sanc, sout, sstat, skeys⟩ := remove_task_stats_spec ht hleaf hpres
  rcases hres1 : WSB.remove_task_stats_from_tasks (p ++ [k]) M with ⟨r1, M1⟩
  rw [hres1] at sok sself sanc sout sstat skeys
  simp only at sok sself sanc sout sstat skeys
  subst sok
  obtain ⟨t1, ht1, ht1s⟩ : ∃ t1, lookupTask M1 (p ++ [k]) = some t1 ∧
      stripStatus t1 = stripStatus { t with planned_value := 0, actual_cost := 0 } := by
    cases hl : lookupTask M1 (p ++ [k]) with
    | none => rw [hl] at sself; exact absurd sself (by simp)
    | some u =>
      rw [hl] at sself
      exact ⟨u, rfl, by simpa using sself⟩
  obtain ⟨π1, hπ1, hπ1s⟩ : ∃ π1, lookupTask M1 p = some π1 ∧
      stripStatus π1 = stripStatus { π with
        planned_value := π.planned_value - t.planned_value,
        actual_cost := π.actual_cost - t.actual_cost } := by
    have h2 := sanc p (List.prefix_refl p)
    rw [hπ] at h2
    cases hl : lookupTask M1 p with
    | none => rw [hl] at h2; exact absurd h2 (by simp)
    | some u =>
      rw [hl] at h2
      exact ⟨u, rfl, by simpa using h2⟩
  obtain ⟨hπ1n, hπ1i, hπ1p, hπ1c, hπ1nc⟩ := stripStatus_eq_iff.mp hπ1s
  have hπ1id : π1.id = p := by
    rw [hπ1i]
    exact hInv.id_eq p π hπ
  have hπ1nc' : π1.num_child = π.num_child := by simpa using hπ1nc
  -- step the code of remove to the shift loop
  have hpar : TaskId.parent (p ++ [k]) = .ok p := by
    rw [TaskId.parent, if_neg (by simp)]
    simp
  have hcidx : TaskId.child_idx (p ++ [k]) = .ok k := by
    rw [TaskId.child_idx]
    simp
  have hlay : (p ++ [k]).length - 1 = p.length := by simp
  set parent1 : Task := { π1 with num_child := π1.num_child - 1 } with hparent1
  set M2 := insertTask M1 p parent1 with hM2
  have hM2k : lookupTask M2 (p ++ [k]) = some t1 := by
    rw [hM2, lookupTask_insert, if_neg (by
      intro hh
      have := congrArg List.length hh
      simp at this)]
    exact ht1
  set M3 := eraseKey M2 (p ++ [k]) with hM3
  have hpc_id : parent1.id = p := hπ1id
  have hpc_nc : parent1.num_child + 1 = π.num_child := by
    rw [hparent1]
    simp only
    omega
  have hremove_eq : WSB.remove (p ++ [k]) M
      = (match WSB.shift_loop (maxKeyLen M3 + 1) (k - 1) p.length
            (TaskId.child_ids p π.num_child).enum M3 with
        | (.error e, M4) => (.error e, M4)
        | (.ok _, M4) =>
          (.ok t1, eraseKey M4 ((p ++ [k]).set p.length
            (TaskId.child_ids p π.num_child).length))) := by
    simp only [WSB.remove, ht]
    rw [if_neg (by rw [hleaf]; exact lt_irrefl 0)]
    simp only [hres1, hpar, hπ1, hcidx]
    rw [← hparent1, ← hM2]
    simp only [hM2k]
    rw [← hM3, hpc_id, hpc_nc, hlay]
  -- untouched lookups between M and M3 outside the parent, the leaf, and the path
  have hM3look : ∀ q, ¬ q <+: p ++ [k] → ¬ q = p → ¬ q = p ++ [k] →
      lookupTask M3 q = lookupTask M q := by
    intro q h1 h2 h3
    rw [hM3, lookupTask_erase, if_neg (fun hh => h3 hh.symm), hM2, lookupTask_insert,
      if_neg (fun hh => h2 hh.symm)]
    exact sout q h1
  -- chain preconditions
  have hsrc3 : ∀ i, i < π.num_child - k → SubtreeIntact M3 (p ++ [k + i + 1]) := by
    intro i hi
    refine subtreeIntact_transfer (M := M) ?_ ?_
    · intro q hq
      obtain ⟨s, hq2, _⟩ := prefix_decomp hq
      apply hM3look q
      · intro hcon
        rcases prefix_concat_cases hcon with rfl | hcon'
        · have := (append_cons_inj hq2).1
          omega
        · have := hcon'.length_le
          rw [hq2] at this
          simp at this
      · intro hh
        rw [hh] at hq2
        have := congrArg List.length hq2
        simp at this
      · intro hh
        rw [hh] at hq2
        have := (append_cons_inj hq2).1
        omega
    · apply hInv.subtree
      exact (hInv.children p π hπ (k + i + 1)).mpr ⟨by omega, by omega⟩
  have hfree3 : ∀ q, p ++ [k] <+: q → lookupTask M3 q = none := by
    intro q hq
    rcases hq with ⟨r, rfl⟩
    cases r with
    | nil =>
      rw [hM3]
      simp only [List.append_nil]
      rw [lookupTask_erase, if_pos rfl]
    | cons n r' =>
      rw [hM3look ((p ++ [k]) ++ n :: r') ?hg1 ?hg2 ?hg3]
      · rw [show (p ++ [k]) ++ n :: r' = (p ++ [k]) ++ n :: r' from rfl]
        exact hInv.absent_below ht (by omega) r'
      case hg1 =>
        apply not_prefix_of_longer
        simp
      case hg2 =>
        intro hh
        have := congrArg List.length hh
        simp at this
      case hg3 =>
        intro hh
        have := congrArg List.length hh
        simp at this
  obtain ⟨cok, cL, ctgt, cnone, cels⟩ :=
    shift_loop_chain (maxKeyLen M3 + 1) k p hk.1 (π.num_child - k) k M3 (maxKeyLen M3)
      (le_refl k) hsrc3 hfree3 (keys_length_bound M3) (by omega)
  have hloop_eq : WSB.shift_loop (maxKeyLen M3 + 1) (k - 1) p.length
        (TaskId.child_ids p π.num_child).enum M3
      = WSB.shift_loop (maxKeyLen M3 + 1) (k - 1) p.length
          ((List.range' k (π.num_child - k)).map (fun e => (e, p ++ [e + 1]))) M3 := by
    rw [child_ids_enum]
    have hsplit : List.range' 0 π.num_child
        = List.range' 0 k ++ List.range' k (π.num_child - k) := by
      have h0 := List.range'_append_1 0 k (π.num_child - k)
      rw [Nat.zero_add] at h0
      rw [show π.num_child - k + k = π.num_child from by omega] at h0
      exact h0.symm
    rw [hsplit, List.map_append]
    apply shift_loop_skip
    intro pr hpr
    simp only [List.mem_map] at hpr
    obtain ⟨e, he, rfl⟩ := hpr
    rw [List.mem_range'_1] at he
    simp only
    omega
  rcases hres2 : WSB.shift_loop (maxKeyLen M3 + 1) (k - 1) p.length
      ((List.range' k (π.num_child - k)).map (fun e => (e, p ++ [e + 1]))) M3
    with ⟨r2, M4⟩
  rw [hres2] at cok cL ctgt cnone cels
  simp only at cok cL ctgt cnone cels
  subst cok
  -- the final erase of the vacated highest slot is a no-op
  have hM4top : lookupTask M4 (p ++ [π.num_child]) = none := by
    apply cnone
    rw [show k + (π.num_child - k) = π.num_child from by omega]
  have hset : (p ++ [k]).set p.length (TaskId.child_ids p π.num_child).length
      = p ++ [π.num_child] := by
    rw [child_ids_len]
    exact setEntry_append p k [] π.num_child
  have hfin : WSB.remove (p ++ [k]) M = (.ok t1, M4) := by
    rw [hremove_eq, hloop_eq, hres2]
    simp only
    rw [hset, eraseKey_of_not_mem hM4top]
  refine ⟨t1, π, hπ, hk.1, hk.2, by rw [hfin], ht1s, ?_, ?_, ?_, ?_, ?_, ?_, ?_⟩
  · -- the parent
    rw [hfin]
    simp only
    rw [cels p (by
      intro i hi hcon
      have := hcon.length_le
      simp at this)]
    rw [hM3, lookupTask_erase, if_neg (by
      intro hh
      have := congrArg List.length hh
      simp at this)]
    rw [hM2, lookupTask_insert, if_pos rfl]
    simp only [Option.map_some']
    refine congrArg some ?_
    rw [hparent1, stripStatus_eq_iff]
    refine ⟨by simpa using hπ1n, by simpa using hπ1i, by simpa using hπ1p,
      by simpa using hπ1c, by simp only; rw [hπ1nc']⟩
  · -- strict ancestors of the parent
    intro q hq hqne
    rw [hfin]
    simp only
    rw [cels q (by
      intro i hi hcon
      have h1 := hcon.length_le
      have h2 := hq.length_le
      simp only [List.length_append, List.length_cons, List.length_nil] at h1
      omega)]
    rw [hM3, lookupTask_erase, if_neg (by
      intro hh
      have h2 := hq.length_le
      rw [← hh] at h2
      simp at h2)]
    rw [hM2, lookupTask_insert, if_neg (fun hh => hqne hh.symm)]
    exact sanc q hq
  · -- the shifted region
    intro j r hj1 hj2
    rw [hfin]
    simp only
    rw [ctgt (p ++ j :: r) ⟨j - k, by omega, by
      rw [show k + (j - k) = j from by omega]
      exact ⟨r, by simp⟩⟩]
    rw [show incEntry (p ++ j :: r) p.length = p ++ (j + 1) :: r from by
      rw [incEntry_append]]
    rw [hM3look (p ++ (j + 1) :: r) ?hh1 ?hh2 ?hh3]
    case hh1 =>
      intro hcon
      rcases prefix_concat_cases hcon with heq | hcon'
      · have := (append_cons_inj heq).1
        omega
      · have := hcon'.length_le
        simp at this
    case hh2 =>
      intro hh
      have := congrArg List.length hh
      simp at this
    case hh3 =>
      intro hh
      have := (append_cons_inj hh).1
      omega
  · -- the vacated and out-of-range slots
    intro j r hj
    rw [hfin]
    simp only
    rcases Nat.eq_or_lt_of_le hj with heq | hjgt
    · apply cnone
      rw [show k + (π.num_child - k) = π.num_child from by omega, heq]
      exact ⟨r, by simp⟩
    · rw [cels (p ++ j :: r) (by
        intro i hi hcon
        obtain ⟨s3, hq3, _⟩ := prefix_decomp hcon
        have := (append_cons_inj hq3).1
        omega)]
      rw [hM3look (p ++ j :: r) ?hi1 ?hi2 ?hi3]
      · exact hInv.absent_below hπ (by omega) r
      case hi1 =>
        intro hcon
        rcases prefix_concat_cases hcon with heq | hcon'
        · have := (append_cons_inj heq).1
          omega
        · have := hcon'.length_le
          simp at this
      case hi2 =>
        intro hh
        have := congrArg List.length hh
        simp at this
      case hi3 =>
        intro hh
        have := (append_cons_inj hh).1
        omega
  · -- untouched slots below the removal index
    intro j r hj
    rw [hfin]
    simp only
    rw [cels (p ++ j :: r) (by
      intro i hi hcon
      obtain ⟨s3, hq3, _⟩ := prefix_decomp hcon
      have := (append_cons_inj hq3).1
      omega)]
    rw [hM3look (p ++ j :: r) ?hj1 ?hj2 ?hj3]
    case hj1 =>
      intro hcon
      rcases prefix_concat_cases hcon with heq | hcon'
      · have := (append_cons_inj heq).1
        omega
      · have := hcon'.length_le
        simp at this
    case hj2 =>
      intro hh
      have := congrArg List.length hh
      simp at this
    case hj3 =>
      intro hh
      have := (append_cons_inj hh).1
      omega
  · -- untouched outside the subtree of p and off the ancestor path
    intro q hq1 hq2
    rw [hfin]
    simp only
    rw [cels q (by
      intro i hi hcon
      exact hq2 ((List.prefix_append p [k + i]).trans hcon))]
    rw [hM3look q ?hk1 ?hk2 ?hk3]
    case hk1 =>
      intro hcon
      rcases prefix_concat_cases hcon with rfl | hcon'
      · exact hq2 (List.prefix_append p [k])
      · exact hq1 hcon'
    case hk2 =>
      intro hh
      exact hq1 (hh ▸ List.prefix_refl q)
    case hk3 =>
      intro hh
      exact hq2 (hh ▸ List.prefix_append p [k])
  · -- statuses only move to Done on the ancestor path
    intro q hq
    rw [hfin]
    simp only
    rw [cels q (by
      intro i hi hcon
      have h1 := hcon.length_le
      have h2 := hq.length_le
      simp only [List.length_append, List.length_cons, List.length_nil] at h1
      omega)]
    by_cases hqp : q = p
    · subst hqp
      rw [hM3, lookupTask_erase, if_neg (by
        intro hh
        have := congrArg List.length hh
        simp at this)]
      rw [hM2, lookupTask_insert, if_pos rfl]
      have := sstat q
      rw [hπ1] at this
      rcases this with h1 | h1
      · left
        rw [← h1]
        rw [hparent1]
        rfl
      · right
        rw [hparent1]
        simp only [Option.map_some'] at h1 ⊢
        exact h1
    · rw [hM3, lookupTask_erase, if_neg (by
        intro hh
        have h2 := hq.length_le
        rw [← hh] at h2
        simp at h2)]
      rw [hM2, lookupTask_insert, if_neg (fun hh => hqp hh.symm)]
      exact sstat q

/-! ### add_task specification -/

theorem add_task_absent {M : Store} {p : TaskId} (name : String)
    (h : lookupTask M p = none) :
    WSB.add_task p name M = (.error (.TaskNotFound p), M) := by
  rw [WSB.add_task, h]

theorem add_task_spec {M : Store} {p : TaskId} {π : Task} (name : String)
    (hInv : Inv M) (hπ : lookupTask M p = some π) :
    lookupTask M (p ++ [π.num_child + 1]) = none ∧
    (WSB.add_task p name M).1 = .ok (Task.new (p ++ [π.num_child + 1]) name) ∧
      lookupTask (WSB.add_task p name M).2 (p ++ [π.num_child + 1])
        = some (Task.new (p ++ [π.num_child + 1]) name) ∧
      lookupTask (WSB.add_task p name M).2 p
        = some { π with num_child := π.num_child + 1, status := TaskStatus.InProgress } ∧
      (∀ q, q <+: p → q ≠ p → lookupTask (WSB.add_task p name M).2 q
        = (lookupTask M q).map (fun a => { a with status := TaskStatus.InProgress })) ∧
      (∀ q, ¬ q <+: p → q ≠ p ++ [π.num_child + 1] →
        lookupTask (WSB.add_task p name M).2 q = lookupTask M q) := by
  have hπne : lookupTask M p ≠ none := by rw [hπ]; simp
  have hfresh : lookupTask M (p ++ [π.num_child + 1]) = none := by
    by_contra hcon
    have := (hInv.children p π hπ (π.num_child + 1)).mp hcon
    omega
  have hnewid : TaskId.new_child_id p (π.num_child + 1) = .ok (p ++ [π.num_child + 1]) := by
    rw [TaskId.new_child_id, if_neg (by omega)]
  set π1 : Task := { π with num_child := π.num_child + 1 } with hπ1
  set M1 := insertTask M p π1 with hM1
  set newid := p ++ [π.num_child + 1] with hnewid_def
  set M2 := insertTask M1 newid (Task.new newid name) with hM2
  have hM2look : ∀ q, q ≠ p → q ≠ newid → lookupTask M2 q = lookupTask M q := by
    intro q h1 h2
    rw [hM2, lookupTask_insert, if_neg (fun hh => h2 hh.symm), hM1, lookupTask_insert,
      if_neg (fun hh => h1 hh.symm)]
  have hM2p : lookupTask M2 p = some π1 := by
    rw [hM2, lookupTask_insert, if_neg (by
      intro hh
      have := congrArg List.length hh
      simp [hnewid_def] at this), hM1, lookupTask_insert, if_pos rfl]
  have hM2new : lookupTask M2 newid = some (Task.new newid name) := by
    rw [hM2, lookupTask_insert, if_pos rfl]
  have hpathpres : ∀ i ∈ TaskId.path newid, i ∈ keys M2 := by
    intro i hi
    rw [hnewid_def] at hi
    rcases prefix_concat_cases (mem_path_iff.mp hi) with rfl | hq'
    · exact lookupTask_ne_none_iff.mp (by rw [← hnewid_def, hM2new]; simp)
    · apply lookupTask_ne_none_iff.mp
      by_cases hqp : i = p
      · rw [hqp, hM2p]; simp
      · rw [hM2look i hqp (by
          intro hh
          rw [hnewid_def] at hh
          have h1 := hq'.length_le
          rw [hh] at h1
          simp at h1)]
        exact hInv.prefix_present hq' hπne
  obtain ⟨wok, wchar⟩ := apply_ids_spec
    (fun a => { a with status := TaskStatus.InProgress }) (TaskId.path newid) M2
    (path_nodup newid) hpathpres
  have hstep : WSB.add_task p name M
      = (match lookupTask (WSB.apply_ids (fun a => { a with status := TaskStatus.InProgress })
            (TaskId.path newid) M2).2 newid with
        | none => (.error (.TaskNotFound newid),
            (WSB.apply_ids (fun a => { a with status := TaskStatus.InProgress })
              (TaskId.path newid) M2).2)
        | some t => (.ok t,
            (WSB.apply_ids (fun a => { a with status := TaskStatus.InProgress })
              (TaskId.path newid) M2).2)) := by
    simp only [WSB.add_task, hπ]
    rw [show π.num_child + 1 = π1.num_child from by rw [hπ1]]
    rw [show TaskId.new_child_id p π1.num_child = .ok newid from by
      rw [hπ1]; rw [hnewid_def]; exact hnewid]
    simp only [WSB.apply_along_path]
    rw [← hπ1, ← hM1, ← hM2]
    rcases hres : WSB.apply_ids (fun a => { a with status := TaskStatus.InProgress })
        (TaskId.path newid) M2 with ⟨r1, M3⟩
    have : r1 = Except.ok () := by rw [hres] at wok; exact wok
    subst this
    rfl
  have hnew_in_path : newid ∈ TaskId.path newid := mem_path_self newid
  have hfinal_new : lookupTask (WSB.apply_ids
      (fun a => { a with status := TaskStatus.InProgress }) (TaskId.path newid) M2).2 newid
      = some (Task.new newid name) := by
    rw [wchar, if_pos hnew_in_path, hM2new]
    rfl
  refine ⟨hfresh, ?_, ?_, ?_, ?_, ?_⟩
  · rw [hstep, hfinal_new]
  · rw [show (WSB.add_task p name M).2
        = (WSB.apply_ids (fun a => { a with status := TaskStatus.InProgress })
            (TaskId.path newid) M2).2 from by rw [hstep, hfinal_new]]
    exact hfinal_new
  · rw [show (WSB.add_task p name M).2
        = (WSB.apply_ids (fun a => { a with status := TaskStatus.InProgress })
            (TaskId.path newid) M2).2 from by rw [hstep, hfinal_new]]
    rw [wchar, if_pos (by
      rw [hnewid_def]
      exact mem_path_iff.mpr (List.prefix_append p _)), hM2p]
    rw [hπ1]
    rfl
  · intro q hq hqp
    rw [show (WSB.add_task p name M).2
        = (WSB.apply_ids (fun a => { a with status := TaskStatus.InProgress })
            (TaskId.path newid) M2).2 from by rw [hstep, hfinal_new]]
    rw [wchar, if_pos (by
      rw [hnewid_def]
      exact mem_path_iff.mpr (hq.trans (List.prefix_append p _)))]
    rw [hM2look q hqp (by
      intro hh
      rw [hnewid_def] at hh
      have h1 := hq.length_le
      rw [hh] at h1
      simp at h1)]
  · intro q hq hqn
    rw [show (WSB.add_task p name M).2
        = (WSB.apply_ids (fun a => { a with status := TaskStatus.InProgress })
            (TaskId.path newid) M2).2 from by rw [hstep, hfinal_new]]
    rw [wchar, if_neg (by
      intro hmem
      rw [hnewid_def] at hmem
      rcases prefix_concat_cases (mem_path_iff.mp hmem) with heq | hq'
      · exact hqn (by rw [hnewid_def]; exact heq)
      · exact hq hq')]
    exact hM2look q (fun hh => hq (hh ▸ List.prefix_refl q)) hqn

/-! ### Success inversion for the mutating operations -/

theorem set_planned_value_ok_inv {M : Store} {id : TaskId} {v : Rat}
    (h : (WSB.set_planned_value id v M).1 = .ok ()) :
    ∃ p k t, id = p ++ [k] ∧ lookupTask M id = some t ∧ t.num_child = 0 := by
  by_cases hid : id = []
  · subst hid
    rw [WSB.set_planned_value] at h
    simp [TaskId.parent] at h
  · obtain ⟨p, k, hpk⟩ : ∃ p k, id = p ++ [k] :=
      ⟨id.dropLast, id.getLast hid, (List.dropLast_append_getLast hid).symm⟩
    rw [WSB.set_planned_value] at h
    rw [TaskId.parent, if_neg hid] at h
    cases hl : lookupTask M id with
    | none => simp only [hl] at h; simp at h
    | some t =>
      simp only [hl] at h
      by_cases htr : t.is_trunk
      · rw [if_pos htr] at h; simp at h
      · refine ⟨p, k, t, hpk, rfl, ?_⟩
        rw [Task.is_trunk] at htr
        simpa using htr

theorem set_actual_cost_ok_inv {M : Store} {id : TaskId} {c : Rat}
    (h : (WSB.set_actual_cost id c M).1 = .ok ()) :
    ∃ p k t, id = p ++ [k] ∧ lookupTask M id = some t ∧ t.num_child = 0 := by
  by_cases hid : id = []
  · subst hid
    rw [WSB.set_actual_cost] at h
    simp [TaskId.parent] at h
  · obtain ⟨p, k, hpk⟩ : ∃ p k, id = p ++ [k] :=
      ⟨id.dropLast, id.getLast hid, (List.dropLast_append_getLast hid).symm⟩
    rw [WSB.set_actual_cost] at h
    rw [TaskId.parent, if_neg hid] at h
    cases hl : lookupTask M id with
    | none => simp only [hl] at h; simp at h
    | some t =>
      simp only [hl] at h
      by_cases htr : t.is_trunk
      · rw [if_pos htr] at h; simp at h
      · refine ⟨p, k, t, hpk, rfl, ?_⟩
        rw [Task.is_trunk] at htr
        simpa using htr

theorem remove_ok_inv {M : Store} {id : TaskId} {u : Task}
    (h : (WSB.remove id M).1 = .ok u) :
    ∃ p k t, id = p ++ [k] ∧ lookupTask M id = some t ∧ t.num_child = 0 := by
  cases hl : lookupTask M id with
  | none => rw [WSB.remove] at h; simp only [hl] at h; simp at h
  | some t =>
    by_cases htr : 0 < t.num_child
    · rw [WSB.remove] at h
      simp only [hl] at h
      rw [if_pos htr] at h
      simp at h
    · by_cases hid : id = []
      · subst hid
        rw [WSB.remove] at h
        simp only [hl] at h
        rw [if_neg htr] at h
        rcases hres : WSB.remove_task_stats_from_tasks [] M with ⟨r1, M1⟩
        rw [hres] at h
        have : r1 = Except.error (Error.NoParent []) := by
          have h2 : (WSB.remove_task_stats_from_tasks [] M).1
              = Except.error (Error.NoParent []) := by
            rw [WSB.remove_task_stats_from_tasks]
            rcases hres2 : WSB.set_actual_cost [] 0 M with ⟨r2, M2⟩
            have : r2 = Except.error (Error.NoParent []) := by
              have h3 : (WSB.set_actual_cost [] 0 M).1
                  = Except.error (Error.NoParent []) := by
                rw [WSB.set_actual_cost]
                simp [TaskId.parent]
              rw [hres2] at h3
              exact h3
            subst this
            simp [hres2]
          rw [hres] at h2
          exact h2
        subst this
        simp at h
      · obtain ⟨p, k, hpk⟩ : ∃ p k, id = p ++ [k] :=
          ⟨id.dropLast, id.getLast hid, (List.dropLast_append_getLast hid).symm⟩
        exact ⟨p, k, t, hpk, rfl, by omega⟩

theorem add_task_ok_inv {M : Store} {p : TaskId} {name : String} {u : Task}
    (h : (WSB.add_task p name M).1 = .ok u) : ∃ π, lookupTask M p = some π := by
  cases hl : lookupTask M p with
  | none => rw [WSB.add_task, hl] at h; simp at h
  | some π => exact ⟨π, rfl⟩

/-! ### The aggregate invariant -/

/-- Sum of a numeric field over the direct children slots `1..nc`. -/
def childSum (M : Store) (q : TaskId) (f : Task → Rat) (nc : Nat) : Rat :=
  ((List.range' 1 nc).map (fun n =>
    match lookupTask M (q ++ [n]) with
    | some c => f c
    | none => 0)).sum

/-- Aggregate invariant (spec §3): every trunk's planned value and actual cost
equal the sums over its direct children. -/
structure Agg (M : Store) : Prop where
  pv : ∀ q u, lookupTask M q = some u → 0 < u.num_child →
    u.planned_value = childSum M q Task.planned_value u.num_child
  ac : ∀ q u, lookupTask M q = some u → 0 < u.num_child →
    u.actual_cost = childSum M q Task.actual_cost u.num_child

/-! ### Invariant preservation -/

theorem prefix_trichotomy (p q : TaskId) :
    q <+: p ∨ (∃ j r, q = p ++ j :: r) ∨ (¬ q <+: p ∧ ¬ p <+: q) := by
  by_cases h1 : q <+: p
  · exact Or.inl h1
  · by_cases h2 : p <+: q
    · refine Or.inr (Or.inl ?_)
      rcases prefix_cases h2 (fun hh => h1 (hh ▸ List.prefix_refl q)) with ⟨j, r, hq⟩
      exact ⟨j, r, hq⟩
    · exact Or.inr (Or.inr ⟨h1, h2⟩)

theorem Inv_new (name : String) : Inv (WSB.new name) := by
  have hlook : ∀ q, lookupTask (WSB.new name) q
      = if q = [] then some (Task.new [] name) else none := by
    intro q
    show (if [] = q then some (Task.new [] name) else none) = _
    by_cases h : q = []
    · rw [if_pos h.symm, if_pos h]
    · rw [if_neg (fun hh => h hh.symm), if_neg h]
  refine ⟨by simp [WSB.new, insertTask, NodupKeys, keys], by rw [hlook]; simp, ?_, ?_, ?_⟩
  · intro q t hqt
    rw [hlook] at hqt
    by_cases h : q = []
    · rw [if_pos h] at hqt
      cases hqt
      rw [h]
      rfl
    · rw [if_neg h] at hqt
      cases hqt
  · intro q t hqt n
    rw [hlook] at hqt
    by_cases h : q = []
    · rw [if_pos h] at hqt
      cases hqt
      rw [hlook, if_neg (by simp)]
      simp [Task.new]
      omega
    · rw [if_neg h] at hqt
      cases hqt
  · intro q n hq
    rw [hlook] at hq ⊢
    by_cases h : q ++ [n] = []
    · simp at h
    · rw [if_neg h] at hq
      simp at hq

theorem Inv_transfer {M M' : Store} (hInv : Inv M) (hnodup : NodupKeys M')
    (hkeys : ∀ q, lookupTask M' q = none ↔ lookupTask M q = none)
    (hnc : ∀ q, (lookupTask M' q).map Task.num_child
      = (lookupTask M q).map Task.num_child)
    (hid : ∀ q, (lookupTask M' q).map Task.id = (lookupTask M q).map Task.id) :
    Inv M' := by
  refine ⟨hnodup, ?_, ?_, ?_, ?_⟩
  · intro hcon
    exact hInv.root_mem ((hkeys []).mp hcon)
  · intro q t hqt
    have h1 := hid q
    rw [hqt] at h1
    cases hl : lookupTask M q with
    | none => rw [hl] at h1; exact absurd h1 (by simp)
    | some u =>
      rw [hl] at h1
      simp only [Option.map_some', Option.some.injEq] at h1
      rw [h1]
      exact hInv.id_eq q u hl
  · intro q t hqt n
    have h1 := hnc q
    rw [hqt] at h1
    cases hl : lookupTask M q with
    | none => rw [hl] at h1; exact absurd h1 (by simp)
    | some u =>
      rw [hl] at h1
      simp only [Option.map_some', Option.some.injEq] at h1
      rw [Ne, hkeys (q ++ [n]), h1]
      exact hInv.children q u hl n
  · intro q n hq
    rw [Ne, hkeys] at hq ⊢
    exact hInv.closed q n hq

theorem nodup_apply_along_path (id : TaskId) (f : Task → Task) {M : Store}
    (h : NodupKeys M) : NodupKeys (WSB.apply_along_path id f M).2 :=
  apply_ids_nodup f (TaskId.path id) h

theorem nodup_add_task (p : TaskId) (name : String) {M : Store} (h : NodupKeys M) :
    NodupKeys (WSB.add_task p name M).2 := by
  rw [WSB.add_task]
  cases hl : lookupTask M p with
  | none => exact h
  | some π =>
    simp only
    cases hnc : TaskId.new_child_id p (π.num_child + 1) with
    | error e => exact nodupKeys_insert _ _ h
    | ok newid =>
      simp only
      rcases hres : WSB.apply_along_path newid
          (fun t => { t with status := TaskStatus.InProgress })
          (insertTask (insertTask M p { π with num_child := π.num_child + 1 }) newid
            (Task.new newid name)) with ⟨r1, M3⟩
      have h3 : NodupKeys M3 := by
        have h2 : NodupKeys (insertTask (insertTask M p
            { π with num_child := π.num_child + 1 }) newid (Task.new newid name)) :=
          nodupKeys_insert _ _ (nodupKeys_insert _ _ h)
        have h4 := nodup_apply_along_path newid
          (fun t => { t with status := TaskStatus.InProgress }) h2
        rw [hres] at h4
        exact h4
      cases r1 with
      | error e => exact h3
      | ok u =>
        simp only
        cases lookupTask M3 newid with
        | none => exact h3
        | some t => exact h3

theorem nodup_set_planned_value (id : TaskId) (v : Rat) {M : Store}
    (h : NodupKeys M) : NodupKeys (WSB.set_planned_value id v M).2 := by
  rw [WSB.set_planned_value]
  cases TaskId.parent id with
  | error e => exact h
  | ok pid =>
    simp only
    cases lookupTask M id with
    | none => exact h
    | some t =>
      simp only
      by_cases htr : t.is_trunk
      · rw [if_pos htr]; exact h
      · rw [if_neg htr]
        exact nodup_apply_along_path pid _ (nodupKeys_insert _ _ h)

theorem nodup_set_actual_cost (id : TaskId) (c : Rat) {M : Store}
    (h : NodupKeys M) : NodupKeys (WSB.set_actual_cost id c M).2 := by
  rw [WSB.set_actual_cost]
  cases TaskId.parent id with
  | error e => exact h
  | ok pid =>
    simp only
    cases lookupTask M id with
    | none => exact h
    | some t =>
      simp only
      by_cases htr : t.is_trunk
      · rw [if_pos htr]; exact h
      · rw [if_neg htr]
        rcases hres : WSB.apply_along_path pid
            (fun a => { a with actual_cost := a.actual_cost + (c - t.actual_cost) })
            (insertTask M id { t with actual_cost := c }) with ⟨r1, M2⟩
        have h2 : NodupKeys M2 := by
          have := nodup_apply_along_path pid
            (fun a => { a with actual_cost := a.actual_cost + (c - t.actual_cost) })
            (nodupKeys_insert (M := M) id { t with actual_cost := c } h)
          rw [hres] at this
          exact this
        cases r1 with
        | error e => exact h2
        | ok u => exact done_walk_nodup _ h2

theorem nodup_remove_task_stats (id : TaskId) {M : Store} (h : NodupKeys M) :
    NodupKeys (WSB.remove_task_stats_from_tasks id M).2 := by
  rw [WSB.remove_task_stats_from_tasks]
  rcases hres : WSB.set_actual_cost id 0 M with ⟨r1, M1⟩
  have h1 : NodupKeys M1 := by
    have := nodup_set_actual_cost id 0 h
    rw [hres] at this
    exact this
  cases r1 with
  | error e => exact h1
  | ok u => exact nodup_set_planned_value id 0 h1

theorem nodup_remove (id : TaskId) {M : Store} (h : NodupKeys M) :
    NodupKeys (WSB.remove id M).2 := by
  rw [WSB.remove]
  cases lookupTask M id with
  | none => exact h
  | some t0 =>
    simp only
    by_cases htr : 0 < t0.num_child
    · rw [if_pos htr]; exact h
    · rw [if_neg htr]
      rcases hres1 : WSB.remove_task_stats_from_tasks id M with ⟨r1, M1⟩
      have h1 : NodupKeys M1 := by
        have := nodup_remove_task_stats id h
        rw [hres1] at this
        exact this
      cases r1 with
      | error e => exact h1
      | ok u =>
        simp only
        cases TaskId.parent id with
        | error e => exact h1
        | ok pid =>
          simp only
          cases lookupTask M1 pid with
          | none => exact h1
          | some parent0 =>
            simp only
            have h2 : NodupKeys (insertTask M1 pid
                { parent0 with num_child := parent0.num_child - 1 }) :=
              nodupKeys_insert _ _ h1
            cases TaskId.child_idx id with
            | error e => exact h2
            | ok ci =>
              simp only
              cases lookupTask (insertTask M1 pid
                  { parent0 with num_child := parent0.num_child - 1 }) id with
              | none => exact h2
              | some task =>
                simp only
                have h3 : NodupKeys (eraseKey (insertTask M1 pid
                    { parent0 with num_child := parent0.num_child - 1 }) id) :=
                  nodupKeys_erase _ h2
                rcases hres2 : WSB.shift_loop
                    (maxKeyLen (eraseKey (insertTask M1 pid
                      { parent0 with num_child := parent0.num_child - 1 }) id) + 1)
                    (ci - 1) (id.length - 1)
                    (TaskId.child_ids
                      ({ parent0 with num_child := parent0.num_child - 1 } : Task).id
                      (parent0.num_child - 1 + 1)).enum
                    (eraseKey (insertTask M1 pid
                      { parent0 with num_child := parent0.num_child - 1 }) id)
                  with ⟨r2, M4⟩
                have h4 : NodupKeys M4 := by
                  have := shift_loop_nodup
                    (maxKeyLen (eraseKey (insertTask M1 pid
                      { parent0 with num_child := parent0.num_child - 1 }) id) + 1)
                    (ci - 1) (id.length - 1)
                    (TaskId.child_ids
                      ({ parent0 with num_child := parent0.num_child - 1 } : Task).id
                      (parent0.num_child - 1 + 1)).enum _ h3
                  rw [hres2] at this
                  exact this
                cases r2 with
                | error e => exact h4
                | ok u2 => exact nodupKeys_erase _ h4

theorem concat_eq_concat_iff {q p : TaskId} {n m : Nat} :
    q ++ [n] = p ++ [m] ↔ q = p ∧ n = m := by
  constructor
  · intro h
    have hlen : q.length = p.length := by
      have := congrArg List.length h
      simpa using this
    have hq : q <+: p ++ [m] := h ▸ List.prefix_append q [n]
    have hqp : q = p := prefix_same_length_eq hq (List.prefix_append p [m]) hlen
    subst hqp
    exact ⟨rfl, (append_cons_inj h).1⟩
  · rintro ⟨rfl, rfl⟩
    rfl

theorem Inv_add {M : Store} {p : TaskId} {π : Task} (name : String)
    (hInv : Inv M) (hπ : lookupTask M p = some π) :
    Inv (WSB.add_task p name M).2 := by
  obtain ⟨hfresh, _, hNc, hNp, hNanc, hNout⟩ := add_task_spec name hInv hπ
  set N := (WSB.add_task p name M).2 with hN
  set c := p ++ [π.num_child + 1] with hc
  have hclen : p.length < c.length := by rw [hc]; simp
  have hanc_len : ∀ x : TaskId, x <+: p → x ≠ p → x.length < p.length := by
    intro x hx hne
    rcases Nat.lt_or_ge x.length p.length with h | h
    · exact h
    · exact absurd (prefix_same_length_eq hx (List.prefix_refl p)
        (Nat.le_antisymm hx.length_le h)) hne
  have hpres : ∀ x, lookupTask N x ≠ none ↔ (lookupTask M x ≠ none ∨ x = c) := by
    intro x
    by_cases hxc : x = c
    · subst hxc
      rw [hNc]
      simp
    · by_cases hxp : x <+: p
      · by_cases hxpe : x = p
        · subst hxpe
          rw [hNp, hπ]
          simp
        · rw [hNanc x hxp hxpe]
          rw [hπ] at *
          cases lookupTask M x with
          | none => simp [hxc]
          | some u => simp [hxc]
      · rw [hNout x hxp hxc]
        simp [hxc]
  refine ⟨nodup_add_task p name hInv.nodup, ?_, ?_, ?_, ?_⟩
  · exact (hpres []).mpr (Or.inl hInv.root_mem)
  · intro q t hqt
    by_cases hqc : q = c
    · subst hqc
      rw [hNc] at hqt
      cases hqt
      rfl
    · by_cases hqp : q <+: p
      · by_cases hqpe : q = p
        · subst hqpe
          rw [hNp] at hqt
          cases hqt
          exact hInv.id_eq q π hπ
        · rw [hNanc q hqp hqpe] at hqt
          cases hl : lookupTask M q with
          | none => rw [hl] at hqt; cases hqt
          | some u =>
            rw [hl] at hqt
            cases hqt
            exact hInv.id_eq q u hl
      · rw [hNout q hqp hqc] at hqt
        exact hInv.id_eq q t hqt
  · intro q t hqt n
    by_cases hqc : q = c
    · subst hqc
      rw [hNc] at hqt
      cases hqt
      rw [hpres]
      constructor
      · rintro (hm | heq)
        · exact absurd (hInv.closed c n hm) (by rw [hfresh]; simp)
        · have := congrArg List.length heq
          simp at this
      · rintro ⟨h1, h2⟩
        simp [Task.new] at h2
        omega
    · by_cases hqp : q <+: p
      · by_cases hqpe : q = p
        · subst hqpe
          rw [hNp] at hqt
          cases hqt
          rw [hpres]
          have heq : q ++ [n] = c ↔ n = π.num_child + 1 := by
            rw [hc, concat_eq_concat_iff]
            simp
          rw [heq, hInv.children q π hπ n]
          show _ ↔ 1 ≤ n ∧ n ≤ π.num_child + 1
          omega
        · rw [hNanc q hqp hqpe] at hqt
          cases hl : lookupTask M q with
          | none => rw [hl] at hqt; cases hqt
          | some u =>
            rw [hl] at hqt
            cases hqt
            rw [hpres]
            have hne : ¬ q ++ [n] = c := by
              rw [hc, concat_eq_concat_iff]
              rintro ⟨rfl, -⟩
              exact hqpe rfl
            simp only [hne, or_false]
            exact hInv.children q u hl n
      · rw [hNout q hqp hqc] at hqt
        rw [hpres]
        have hne : ¬ q ++ [n] = c := by
          rw [hc, concat_eq_concat_iff]
          rintro ⟨rfl, -⟩
          exact hqp (List.prefix_refl q)
        simp only [hne, or_false]
        exact hInv.children q t hqt n
  · intro q n hq
    rw [hpres] at hq ⊢
    rcases hq with hm | heq
    · exact Or.inl (hInv.closed q n hm)
    · have : q = p := (concat_eq_concat_iff.mp (heq.trans hc.symm.symm)).1
      subst this
      rw [hπ]
      exact Or.inl (by simp)

theorem map_none_iff_of_map_eq {f g : Task → Task} {x y : Option Task}
    (h : x.map f = y.map g) : x = none ↔ y = none := by
  cases x <;> cases y <;> simp_all

theorem map_strip_proj {α : Type} {x y : Option Task} {f : Task → Task} (g : Task → α)
    (hg : ∀ a, g (stripStatus a) = g a) (hf : ∀ a, g (f a) = g a)
    (h : x.map stripStatus = y.map f) : x.map g = y.map g := by
  cases x with
  | none =>
    cases y with
    | none => rfl
    | some b => exact Option.noConfusion h
  | some a =>
    cases y with
    | none => exact Option.noConfusion h
    | some b =>
      simp only [Option.map_some', Option.some.injEq] at h ⊢
      have h2 := congrArg g h
      rw [hg, hf] at h2
      exact h2

theorem Inv_remove {M : Store} {p : TaskId} {k : Nat} {t : Task}
    (hInv : Inv M) (ht : lookupTask M (p ++ [k]) = some t) (hleaf : t.num_child = 0) :
    Inv (WSB.remove (p ++ [k]) M).2 := by
  obtain ⟨u, π, hπ, hk1, hk2, hok, hu, hRp, hRanc, hshift, hvac, hlow, hout, hstat⟩ :=
    remove_spec hInv ht hleaf
  set R := (WSB.remove (p ++ [k]) M).2 with hRdef
  have hRp_some : ∃ w, lookupTask R p = some w ∧
      w.num_child = π.num_child - 1 ∧ w.id = p := by
    cases hl : lookupTask R p with
    | none => rw [hl] at hRp; exact Option.noConfusion hRp
    | some w =>
      rw [hl] at hRp
      simp only [Option.map_some', Option.some.injEq] at hRp
      refine ⟨w, rfl, ?_, ?_⟩
      · have h2 := congrArg Task.num_child hRp
        exact h2
      · have h2 := congrArg Task.id hRp
        have h3 : w.id = π.id := h2
        rw [h3]
        exact hInv.id_eq p π hπ
  have hpre_none : ∀ q, q <+: p → (lookupTask R q = none ↔ lookupTask M q = none) := by
    intro q hq
    by_cases hqe : q = p
    · subst hqe
      obtain ⟨w, hw, -, -⟩ := hRp_some
      rw [hw, hπ]
      simp
    · exact map_none_iff_of_map_eq (hRanc q hq hqe)
  have hpre_nc : ∀ q, q <+: p → q ≠ p →
      (lookupTask R q).map Task.num_child = (lookupTask M q).map Task.num_child :=
    fun q hq hqe =>
      map_strip_proj Task.num_child (fun a => by rfl) (fun a => by rfl) (hRanc q hq hqe)
  have hpre_id : ∀ q, q <+: p → q ≠ p →
      (lookupTask R q).map Task.id = (lookupTask M q).map Task.id :=
    fun q hq hqe =>
      map_strip_proj Task.id (fun a => by rfl) (fun a => by rfl) (hRanc q hq hqe)
  have hchild_out : ∀ (q : TaskId) (n : Nat), ¬ q <+: p → ¬ p <+: q →
      ¬ q ++ [n] <+: p ∧ ¬ p <+: q ++ [n] := by
    intro q n h1 h2
    constructor
    · intro hcon
      exact h1 ((List.prefix_append q [n]).trans hcon)
    · intro hcon
      rcases prefix_concat_cases hcon with heq | hpref
      · exact h1 (heq ▸ List.prefix_append q [n])
      · exact h2 hpref
  have hstrict_child : ∀ q, q <+: p → q ≠ p → ∀ n,
      (lookupTask R (q ++ [n]) = none ↔ lookupTask M (q ++ [n]) = none) := by
    intro q hq hqe n
    rcases prefix_cases hq hqe with ⟨j0, r0, hp⟩
    by_cases hn : n = j0
    · subst hn
      refine hpre_none (q ++ [n]) ?_
      rw [hp]
      show q ++ n :: [] <+: q ++ n :: r0
      rw [append_cons_prefix_iff]
      exact List.nil_prefix
    · have h1 : ¬ q ++ [n] <+: p := not_prefix_of_val_ne hp hn
      have h2 : ¬ p <+: q ++ [n] := by
        intro hcon
        rw [hp] at hcon
        obtain ⟨s', hs, -⟩ := prefix_decomp hcon
        exact hn (append_cons_inj hs).1
      rw [hout (q ++ [n]) h1 h2]
  refine ⟨?_, ?_, ?_, ?_, ?_⟩
  · exact nodup_remove (p ++ [k]) hInv.nodup
  · rw [Ne, hpre_none [] List.nil_prefix]
    exact hInv.root_mem
  · -- id fields match keys
    intro q t' hqt
    rcases prefix_trichotomy p q with hq | ⟨j, r, rfl⟩ | ⟨h1, h2⟩
    · by_cases hqe : q = p
      · subst hqe
        obtain ⟨w, hw, -, hwid⟩ := hRp_some
        rw [hw] at hqt
        cases hqt
        exact hwid
      · have h1 := hpre_id q hq hqe
        rw [hqt] at h1
        cases hl : lookupTask M q with
        | none => rw [hl] at h1; exact Option.noConfusion h1
        | some w =>
          rw [hl] at h1
          simp only [Option.map_some', Option.some.injEq] at h1
          rw [h1]
          exact hInv.id_eq q w hl
    · rcases Nat.lt_or_ge j k with hj | hj
      · rw [hlow j r hj] at hqt
        exact hInv.id_eq _ t' hqt
      · rcases Nat.lt_or_ge j π.num_child with hj2 | hj2
        · rw [hshift j r hj hj2] at hqt
          cases hl : lookupTask M (p ++ (j + 1) :: r) with
          | none => rw [hl] at hqt; exact Option.noConfusion hqt
          | some w =>
            rw [hl] at hqt
            simp only [Option.map_some', Option.some.injEq] at hqt
            rw [← hqt]
        · rw [hvac j r hj2] at hqt
          exact Option.noConfusion hqt
    · rw [hout _ h1 h2] at hqt
      exact hInv.id_eq q t' hqt
  · -- children occupy exactly 1..num_child
    intro q t' hqt n
    rcases prefix_trichotomy p q with hq | ⟨j, r, rfl⟩ | ⟨h1, h2⟩
    · by_cases hqe : q = p
      · subst hqe
        obtain ⟨w, hw, hwnc, -⟩ := hRp_some
        rw [hw] at hqt
        cases hqt
        rcases Nat.lt_or_ge n k with hn | hn
        · rw [Ne, show q ++ [n] = q ++ n :: [] from rfl, hlow n [] hn]
          rw [show q ++ n :: [] = q ++ [n] from rfl, ← Ne, hInv.children q π hπ n, hwnc]
          omega
        · rcases Nat.lt_or_ge n π.num_child with hn2 | hn2
          · rw [Ne, show q ++ [n] = q ++ n :: [] from rfl, hshift n [] hn hn2]
            have hkey : q ++ (n + 1) :: [] = q ++ [n + 1] := rfl
            rw [hkey]
            simp only [Option.map_eq_none']
            rw [← Ne, hInv.children q π hπ (n + 1), hwnc]
            omega
          · rw [Ne, show q ++ [n] = q ++ n :: [] from rfl, hvac n [] hn2, hwnc]
            simp only [not_true_eq_false, false_iff]
            omega
      · have hnone := hpre_none q hq
        have huM : ∃ w, lookupTask M q = some w ∧ t'.num_child = w.num_child := by
          have h2 := hpre_nc q hq hqe
          rw [hqt] at h2
          cases hl : lookupTask M q with
          | none =>
            rw [hl] at hnone
            rw [hnone.mpr rfl] at hqt
            exact Option.noConfusion hqt
          | some w =>
            rw [hl] at h2
            simp only [Option.map_some', Option.some.injEq] at h2
            exact ⟨w, rfl, h2⟩
        obtain ⟨w, hw, hwnc⟩ := huM
        rw [Ne, hstrict_child q hq hqe n, ← Ne, hInv.children q w hw n, hwnc]
    · rcases Nat.lt_or_ge j k with hj | hj
      · rw [hlow j r hj] at hqt
        have hx : (p ++ j :: r) ++ [n] = p ++ j :: (r ++ [n]) := by simp
        rw [Ne, hx, hlow j (r ++ [n]) hj, ← hx, ← Ne]
        exact hInv.children _ t' hqt n
      · rcases Nat.lt_or_ge j π.num_child with hj2 | hj2
        · rw [hshift j r hj hj2] at hqt
          cases hl : lookupTask M (p ++ (j + 1) :: r) with
          | none => rw [hl] at hqt; exact Option.noConfusion hqt
          | some w =>
            rw [hl] at hqt
            simp only [Option.map_some', Option.some.injEq] at hqt
            have hx : (p ++ j :: r) ++ [n] = p ++ j :: (r ++ [n]) := by simp
            have hx2 : p ++ (j + 1) :: (r ++ [n]) = (p ++ (j + 1) :: r) ++ [n] := by simp
            rw [Ne, hx, hshift j (r ++ [n]) hj hj2, hx2]
            simp only [Option.map_eq_none']
            rw [← Ne, hInv.children _ w hl n, ← hqt]
        · rw [hvac j r hj2] at hqt
          exact Option.noConfusion hqt
    · rw [hout _ h1 h2] at hqt
      obtain ⟨hc1, hc2⟩ := hchild_out q n h1 h2
      rw [Ne, hout _ hc1 hc2, ← Ne]
      exact hInv.children q t' hqt n
  · -- parent of every present non-root key is present
    intro q n hq
    rcases prefix_trichotomy p q with hqp | ⟨j, r, rfl⟩ | ⟨h1, h2⟩
    · by_cases hqe : q = p
      · subst hqe
        obtain ⟨w, hw, -, -⟩ := hRp_some
        rw [hw]
        simp
      · rw [Ne, hstrict_child q hqp hqe n] at hq
        rw [Ne, hpre_none q hqp]
        exact hInv.closed q n hq
    · rcases Nat.lt_or_ge j k with hj | hj
      · have hx : (p ++ j :: r) ++ [n] = p ++ j :: (r ++ [n]) := by simp
        rw [Ne, hx, hlow j (r ++ [n]) hj, ← hx] at hq
        rw [Ne, hlow j r hj]
        exact hInv.closed _ n hq
      · rcases Nat.lt_or_ge j π.num_child with hj2 | hj2
        · have hx : (p ++ j :: r) ++ [n] = p ++ j :: (r ++ [n]) := by simp
          have hx2 : p ++ (j + 1) :: (r ++ [n]) = (p ++ (j + 1) :: r) ++ [n] := by simp
          rw [Ne, hx, hshift j (r ++ [n]) hj hj2, hx2] at hq
          simp only [Option.map_eq_none'] at hq
          rw [Ne, hshift j r hj hj2]
          simp only [Option.map_eq_none']
          exact hInv.closed _ n hq
        · have hx : (p ++ j :: r) ++ [n] = p ++ j :: (r ++ [n]) := by simp
          rw [Ne, hx, hvac j (r ++ [n]) hj2] at hq
          exact absurd rfl hq
    · obtain ⟨hc1, hc2⟩ := hchild_out q n h1 h2
      rw [Ne, hout _ hc1 hc2] at hq
      rw [Ne, hout _ h1 h2]
      exact hInv.closed q n hq

/-- Stores reachable from `WSB::new` by successful `add_task` and `remove` calls. -/
inductive BuiltAR : Store → Prop where
  | construct (name : String) : BuiltAR (WSB.new name)
  | add (p : TaskId) (name : String) {M : Store} (u : Task) :
      BuiltAR M → (WSB.add_task p name M).1 = .ok u →
      BuiltAR (WSB.add_task p name M).2
  | rem (id : TaskId) {M : Store} (u : Task) :
      BuiltAR M → (WSB.remove id M).1 = .ok u →
      BuiltAR (WSB.remove id M).2

/-- Every store built by construct / successful add / successful remove satisfies
the structural invariant. -/
theorem BuiltAR_Inv {M : Store} (hB : BuiltAR M) : Inv M := by
  induction hB with
  | construct name => exact Inv_new name
  | add p name u hM hok ih =>
    obtain ⟨π, hπ⟩ := add_task_ok_inv hok
    exact Inv_add name ih hπ
  | rem id u hM hok ih =>
    obtain ⟨p, k, t, hid, ht, hleaf⟩ := remove_ok_inv hok
    subst hid
    exact Inv_remove ih ht hleaf

/-! ### Round trip of identifier rendering and parsing -/

theorem natChars_ne_nil (n : Nat) : natChars n ≠ [] := by
  rw [natChars]
  by_cases h : n = 0
  · rw [if_pos h]
    simp
  · rw [if_neg h]
    simp [Nat.digits_ne_nil_iff_ne_zero, h]

theorem natChars_digits (n : Nat) : ∀ c ∈ natChars n, c.isDigit = true := by
  intro c hc
  rw [natChars] at hc
  by_cases h : n = 0
  · rw [if_pos h] at hc
    simp at hc
    subst hc
    decide
  · rw [if_neg h] at hc
    rw [List.mem_reverse, List.mem_map] at hc
    obtain ⟨d, hd, rfl⟩ := hc
    have hlt : d < 10 := Nat.digits_lt_base (by norm_num) hd
    interval_cases d <;> decide

theorem foldr_digit_chars (l : List Nat) (hl : ∀ d ∈ l, d < 10) :
    List.foldr (fun d a => a * 10 + ((Char.ofNat (48 + d)).toNat - 48)) 0 l
      = List.foldr (fun d a => a * 10 + d) 0 l := by
  induction l with
  | nil => rfl
  | cons d t ih =>
    simp only [List.foldr_cons]
    have hd : (Char.ofNat (48 + d)).toNat - 48 = d := by
      have hlt : d < 10 := hl d (List.mem_cons_self d t)
      interval_cases d <;> decide
    rw [hd, ih (fun e he => hl e (List.mem_cons_of_mem d he))]

theorem ofDigits_foldr (l : List Nat) :
    List.foldr (fun d a => a * 10 + d) 0 l = Nat.ofDigits 10 l := by
  induction l with
  | nil => simp [Nat.ofDigits_nil]
  | cons d t ih =>
    simp only [List.foldr_cons, Nat.ofDigits_cons, ih]
    ring

theorem segVal_natChars (n : Nat) : segVal (natChars n) = n := by
  by_cases h : n = 0
  · subst h
    decide
  · rw [natChars, if_neg h, segVal, List.foldl_reverse, List.foldr_map]
    rw [foldr_digit_chars (Nat.digits 10 n)
        (fun d hd => Nat.digits_lt_base (by norm_num) hd),
      ofDigits_foldr]
    exact Nat.ofDigits_digits 10 n

theorem parseU32_natChars (n : Nat) (h : n < 2 ^ 32) : parseU32 (natChars n) = some n := by
  have hdig := natChars_digits n
  unfold parseU32
  split
  · rename_i rest heq
    have hc : ('+' : Char).isDigit = true := by
      apply hdig
      rw [heq]
      exact List.mem_cons_self _ _
    exact absurd hc (by decide)
  · rw [if_pos ⟨natChars_ne_nil n, List.all_eq_true.mpr (fun c hc => hdig c hc)⟩,
      segVal_natChars, if_pos h]

theorem splitDot_no_dot {x : List Char} (h : '.' ∉ x) : splitDot x = [x] := by
  induction x with
  | nil => rfl
  | cons c rest ih =>
    have hc : ¬ c = '.' := fun hh => h (List.mem_cons.mpr (Or.inl hh.symm))
    rw [splitDot, if_neg hc, ih (fun hm => h (List.mem_cons.mpr (Or.inr hm)))]

theorem splitDot_append_dot {x : List Char} (t : List Char) (h : '.' ∉ x) :
    splitDot (x ++ '.' :: t) = x :: splitDot t := by
  induction x with
  | nil =>
    show splitDot ('.' :: t) = [] :: splitDot t
    rw [splitDot, if_pos rfl]
  | cons c rest ih =>
    have hc : ¬ c = '.' := fun hh => h (List.mem_cons.mpr (Or.inl hh.symm))
    show splitDot (c :: (rest ++ '.' :: t)) = (c :: rest) :: splitDot t
    rw [splitDot, if_neg hc, ih (fun hm => h (List.mem_cons.mpr (Or.inr hm)))]

theorem intercalate_single (x : List Char) : List.intercalate ['.'] [x] = x := by
  unfold List.intercalate
  simp

theorem intercalate_cons₂ (x y : List Char) (l : List (List Char)) :
    List.intercalate ['.'] (x :: y :: l) = x ++ '.' :: List.intercalate ['.'] (y :: l) := by
  unfold List.intercalate
  rw [List.intersperse_cons_cons]
  simp

theorem splitDot_intercalate (l : List (List Char)) (hl : ∀ x ∈ l, '.' ∉ x)
    (hne : l ≠ []) : splitDot (List.intercalate ['.'] l) = l := by
  induction l with
  | nil => exact absurd rfl hne
  | cons x rest ih =>
    cases rest with
    | nil =>
      rw [intercalate_single]
      exact splitDot_no_dot (hl x (List.mem_cons_self x []))
    | cons y rest2 =>
      rw [intercalate_cons₂, splitDot_append_dot _ (hl x (List.mem_cons_self x _)),
        ih (fun z hz => hl z (List.mem_cons_of_mem x hz)) (by simp)]

theorem mapM_parseU32_natChars (id : TaskId) (h : ∀ n ∈ id, n < 2 ^ 32) :
    (id.map natChars).mapM parseU32 = some id := by
  induction id with
  | nil => rfl
  | cons n t ih =>
    rw [List.map_cons, List.mapM_cons, parseU32_natChars n (h n (List.mem_cons_self n t)),
      ih (fun m hm => h m (List.mem_cons_of_mem n hm))]
    rfl

theorem toText_ne_nil {id : TaskId} (h : id ≠ []) : TaskId.toText id ≠ [] := by
  cases id with
  | nil => exact absurd rfl h
  | cons n t =>
    rw [TaskId.toText, List.map_cons]
    cases t with
    | nil =>
      rw [show List.map natChars [] = [] from rfl, intercalate_single]
      exact natChars_ne_nil n
    | cons m t2 =>
      rw [List.map_cons, intercalate_cons₂]
      simp

theorem splitDot_ne_nil (s : List Char) : splitDot s ≠ [] := by
  induction s with
  | nil => simp [splitDot]
  | cons c rest ih =>
    rw [splitDot]
    by_cases hc : c = '.'
    · rw [if_pos hc]
      simp
    · rw [if_neg hc]
      cases hsp : splitDot rest with
      | nil => simp
      | cons a as => simp

theorem splitDot_concat_dot (s : List Char) :
    splitDot (s ++ ['.']) = splitDot s ++ [[]] := by
  induction s with
  | nil => rfl
  | cons c rest ih =>
    show splitDot (c :: (rest ++ ['.'])) = splitDot (c :: rest) ++ [[]]
    by_cases hc : c = '.'
    · rw [splitDot, if_pos hc, ih, splitDot, if_pos hc]
      rfl
    · have hR : splitDot (c :: rest)
          = match splitDot rest with
            | [] => [[c]]
            | s :: ss => (c :: s) :: ss := by
        rw [splitDot, if_neg hc]
      rw [splitDot, if_neg hc, ih, hR]
      cases hsp : splitDot rest with
      | nil => exact absurd hsp (splitDot_ne_nil rest)
      | cons a as => simp

theorem mapM_eq_none_iff {α β : Type} (f : α → Option β) (l : List α) :
    l.mapM f = none ↔ ∃ x ∈ l, f x = none := by
  induction l with
  | nil =>
    rw [show List.mapM f [] = pure [] from rfl]
    simp
  | cons a t ih =>
    rw [List.mapM_cons]
    cases hf : f a with
    | none =>
      refine iff_of_true ?_ ⟨a, by simp, hf⟩
      simp [hf]
    | some b =>
      cases ht : List.mapM f t with
      | none =>
        refine iff_of_true ?_ ?_
        · simp [hf, ht]
        · obtain ⟨x, hx, hfx⟩ := ih.mp ht
          exact ⟨x, by simp [hx], hfx⟩
      | some bs =>
        refine iff_of_false ?_ ?_
        · simp [hf, ht]
        · rintro ⟨x, hx, hfx⟩
          rcases List.mem_cons.mp hx with rfl | hx2
          · rw [hf] at hfx
            exact Option.noConfusion hfx
          · have h2 := ih.mpr ⟨x, hx2, hfx⟩
            rw [ht] at h2
            exact Option.noConfusion h2

theorem parse_ok_iff {s : List Char} (hs : s ≠ []) (vs : TaskId) :
    TaskId.parse s = .ok vs ↔ (splitDot s).mapM parseU32 = some vs := by
  rw [TaskId.parse, if_neg hs]
  cases hm : (splitDot s).mapM parseU32 with
  | none => simp
  | some v => simp

theorem parse_err_iff {s : List Char} (hs : s ≠ []) :
    TaskId.parse s = .error (.BadTaskIdString s)
      ↔ ∃ seg ∈ splitDot s, parseU32 seg = none := by
  rw [TaskId.parse, if_neg hs, ← mapM_eq_none_iff]
  cases hm : (splitDot s).mapM parseU32 with
  | none => simp
  | some v => simp

/-! ### Concrete scenario stores used by witnesses and counterexamples -/

section Claims

attribute [local semireducible] Rat.add Rat.sub Rat.inv Rat.mul

instance {ε α : Type} [DecidableEq ε] [DecidableEq α] :
    DecidableEq (Except ε α) := fun a b =>
  match a, b with
  | .error e, .error f =>
    if h : e = f then .isTrue (by rw [h]) else .isFalse (fun hc => h (Except.error.inj hc))
  | .error _, .ok _ => .isFalse (fun hc => Except.noConfusion hc)
  | .ok _, .error _ => .isFalse (fun hc => Except.noConfusion hc)
  | .ok x, .ok y =>
    if h : x = y then .isTrue (by rw [h]) else .isFalse (fun hc => h (Except.ok.inj hc))

/-- Root "P" with two leaves `1` ("A") and `2` ("b"). -/
def twoLeafStore : Store :=
  (WSB.add_task [] "b" (WSB.add_task [] "A" (WSB.new "P")).2).2

/-- Root "P", trunk `1` ("A"), leaf `1.1` ("B"). -/
def nestedStore : Store :=
  (WSB.add_task [1] "B" (WSB.add_task [] "A" (WSB.new "P")).2).2

/-- Root "P" with the single leaf `1` marked `Done` by `set_actual_cost 1 0`. -/
def doneLeafStore : Store :=
  (WSB.set_actual_cost [1] 0 (WSB.add_task [] "A" (WSB.new "P")).2).2

/-- Root "P" with leaf `1` carrying planned value 5. -/
def leafValueStore : Store :=
  (WSB.set_planned_value [1] 5 (WSB.add_task [] "A" (WSB.new "P")).2).2

/-- `leafValueStore` after `add_task 1 "B"`: trunk `1` keeps its authored planned
value 5 while its only child `1.1` has planned value 0. -/
def brokenAggStore : Store := (WSB.add_task [1] "B" leafValueStore).2

/-- Root "P", trunk `1`, leaves `1.1` ("B", `Done` via `set_actual_cost 1`) and
`1.2` ("C", `InProgress`). -/
def stagedStore : Store :=
  (WSB.set_actual_cost [1, 1] 1
    (WSB.add_task [1] "C" (WSB.add_task [1] "B"
      (WSB.add_task [] "A" (WSB.new "P")).2).2).2).2

/-! ### The claims -/

/-- C1. For every store built by `construct` followed by any sequence of successful
`addTask`/`remove` calls: the key set is duplicate-free and the children of every
present task occupy exactly the contiguous sibling range `1..num_child` (no gaps,
no duplicates); moreover a successful `remove` of a leaf at index `k` relabels
every later sibling's entire subtree by decrementing the index at the removal
depth only (suffix indices are carried over unchanged, the top slot is vacated,
earlier siblings and everything outside the parent's subtree are untouched). -/
theorem claim_C1 (M : Store) (hB : BuiltAR M) :
    NodupKeys M ∧
    (∀ q τ, lookupTask M q = some τ → ∀ n,
      (lookupTask M (q ++ [n]) ≠ none ↔ 1 ≤ n ∧ n ≤ τ.num_child)) ∧
    (∀ p k t, lookupTask M (p ++ [k]) = some t → t.num_child = 0 →
      ∃ u π, lookupTask M p = some π ∧ 1 ≤ k ∧ k ≤ π.num_child ∧
        (WSB.remove (p ++ [k]) M).1 = .ok u ∧
        (∀ j r, k ≤ j → j + 1 ≤ π.num_child →
          lookupTask (WSB.remove (p ++ [k]) M).2 (p ++ j :: r)
            = (lookupTask M (p ++ (j + 1) :: r)).map
                (fun w => { w with id := p ++ j :: r })) ∧
        (∀ j r, π.num_child ≤ j →
          lookupTask (WSB.remove (p ++ [k]) M).2 (p ++ j :: r) = none) ∧
        (∀ j r, j < k →
          lookupTask (WSB.remove (p ++ [k]) M).2 (p ++ j :: r)
            = lookupTask M (p ++ j :: r)) ∧
        (∀ q, ¬ q <+: p → ¬ p <+: q →
          lookupTask (WSB.remove (p ++ [k]) M).2 q = lookupTask M q)) := by
  have hInv := BuiltAR_Inv hB
  refine ⟨hInv.nodup, fun q τ hqτ => hInv.children q τ hqτ, ?_⟩
  intro p k t ht hleaf
  obtain ⟨u, π, hπ, hk1, hk2, hok, hu, hRp, hRanc, hshift, hvac, hlow, hout, hstat⟩ :=
    remove_spec hInv ht hleaf
  exact ⟨u, π, hπ, hk1, hk2, hok, hshift, hvac, hlow, hout⟩

/-- Witness for C1 at a concrete two-leaf store: slot `2` of the root is occupied. -/
theorem claim_C1_witness : lookupTask twoLeafStore ([] ++ [2]) ≠ none := by
  have hB : BuiltAR twoLeafStore :=
    BuiltAR.add [] "b" (Task.new [2] "b")
      (BuiltAR.add [] "A" (Task.new [1] "A") (BuiltAR.construct "P") (by decide))
      (by decide)
  have h := claim_C1 twoLeafStore hB
  exact (h.2.1 [] { name := "P", id := [], planned_value := 0, actual_cost := 0, num_child := 2, status := TaskStatus.InProgress } (by decide) 2).mpr (by decide)

/-- C2 (code bug). The aggregate sum invariant is not maintained by the code: after
`construct "P"`, successful `add_task root "A"`, successful
`set_planned_value 1 5` and successful `add_task 1 "B"`, the task `1` is a trunk
(`num_child = 1`) whose planned value 5 differs from the sum 0 of its direct
children's planned values, so the store violates `Agg`. -/
theorem claim_C2_bug :
    (WSB.set_planned_value [1] 5 (WSB.add_task [] "A" (WSB.new "P")).2).1 = .ok () ∧
    (WSB.add_task [1] "B" leafValueStore).1 = .ok (Task.new [1, 1] "B") ∧
    (lookupTask brokenAggStore [1]).map Task.num_child = some 1 ∧
    (lookupTask brokenAggStore [1]).map Task.planned_value = some 5 ∧
    childSum brokenAggStore [1] Task.planned_value 1 = 0 ∧
    ¬ Agg brokenAggStore := by
  refine ⟨by decide, by decide, by decide, by decide, by decide, ?_⟩
  intro hAgg
  exact absurd (hAgg.pv [1] { name := "A", id := [1], planned_value := 5, actual_cost := 0, num_child := 1, status := TaskStatus.InProgress } (by decide) (by decide)) (by decide)

/-- C3 (code bug). `completion_percentage` divides the count of `Done` leaves by
the TOTAL entry count of the store, not by the leaf count: on a store with one
`Done` leaf and the root, it returns 1/2 although every leaf is done. -/
theorem claim_C3_bug :
    (WSB.set_actual_cost [1] 0 (WSB.add_task [] "A" (WSB.new "P")).2).1 = .ok () ∧
    (WSB.done_tasks doneLeafStore).length = 1 ∧
    (WSB.tasks doneLeafStore).length = 1 ∧
    doneLeafStore.length = 2 ∧
    WSB.completion_percentage doneLeafStore = 1 / 2 := by
  decide

/-- C4 (amended). Arithmetic failures of the sibling-identifier computation
propagate out of `WSB::next_sibling` / `WSB::prev_sibling` unchanged (they are NOT
re-wrapped); only a failed store lookup of the successfully computed sibling
identifier is reported as `NoNextSibling` / `NoPrevSibling`, and a present sibling
is returned. -/
theorem claim_C4 (id : TaskId) (M : Store) :
    (∀ e, TaskId.next_sibling id = .error e → WSB.next_sibling id M = .error e) ∧
    (∀ sib, TaskId.next_sibling id = .ok sib →
      (lookupTask M sib = none →
        WSB.next_sibling id M = .error (.NoNextSibling id)) ∧
      (∀ t, lookupTask M sib = some t → WSB.next_sibling id M = .ok t)) ∧
    (∀ e, TaskId.prev_sibling id = .error e → WSB.prev_sibling id M = .error e) ∧
    (∀ sib, TaskId.prev_sibling id = .ok sib →
      (lookupTask M sib = none →
        WSB.prev_sibling id M = .error (.NoPrevSibling id)) ∧
      (∀ t, lookupTask M sib = some t → WSB.prev_sibling id M = .ok t)) := by
  refine ⟨?_, ?_, ?_, ?_⟩
  · intro e he
    rw [WSB.next_sibling, he]
  · intro sib hs
    constructor
    · intro hn
      rw [WSB.next_sibling]
      simp only [hs]
      unfold WSB.get_task
      simp only [hn]
    · intro t htv
      rw [WSB.next_sibling]
      simp only [hs]
      unfold WSB.get_task
      simp only [htv]
  · intro e he
    rw [WSB.prev_sibling, he]
  · intro sib hs
    constructor
    · intro hn
      rw [WSB.prev_sibling]
      simp only [hs]
      unfold WSB.get_task
      simp only [hn]
    · intro t htv
      rw [WSB.prev_sibling]
      simp only [hs]
      unfold WSB.get_task
      simp only [htv]

/-- Counterexample to C4 as stated: on the two-leaf store, `prev_sibling 1` fails
with the propagated arithmetic error `BadTaskIdNum` (not `NoPrevSibling`) and
`next_sibling root` fails with `NoParent` (not `NoNextSibling`). -/
theorem claim_C4_cex :
    WSB.prev_sibling [1] twoLeafStore = .error .BadTaskIdNum ∧
    WSB.next_sibling [] twoLeafStore = .error (.NoParent []) := by
  decide

/-- Witness for C4: next sibling of leaf `1` in the two-leaf store is task `2`. -/
theorem claim_C4_witness :
    WSB.next_sibling [1] twoLeafStore
      = .ok { name := "b", id := [2], planned_value := 0, actual_cost := 0, num_child := 0, status := TaskStatus.InProgress } :=
  ((claim_C4 [1] twoLeafStore).2.1 [2] (by decide)).2 _ (by decide)

/-- C5. `add_task p name`: fails `TaskNotFound` (store unchanged) when `p` is
absent; otherwise succeeds, returning exactly the fresh task
`Task.new (p ++ [num_child + 1]) name` (zero aggregates, no children,
`InProgress`), stores it under the fresh slot, bumps the parent's child count,
sets the status of the parent and of every strict ancestor to `InProgress`, and
touches nothing else. -/
theorem claim_C5 (M : Store) (p : TaskId) (name : String) (hB : BuiltAR M) :
    (lookupTask M p = none →
      WSB.add_task p name M = (.error (.TaskNotFound p), M)) ∧
    (∀ π, lookupTask M p = some π →
      (WSB.add_task p name M).1 = .ok (Task.new (p ++ [π.num_child + 1]) name) ∧
      lookupTask (WSB.add_task p name M).2 (p ++ [π.num_child + 1])
        = some (Task.new (p ++ [π.num_child + 1]) name) ∧
      lookupTask (WSB.add_task p name M).2 p
        = some { π with num_child := π.num_child + 1, status := TaskStatus.InProgress } ∧
      (∀ q, q <+: p → q ≠ p → lookupTask (WSB.add_task p name M).2 q
        = (lookupTask M q).map (fun a => { a with status := TaskStatus.InProgress })) ∧
      (∀ q, ¬ q <+: p → q ≠ p ++ [π.num_child + 1] →
        lookupTask (WSB.add_task p name M).2 q = lookupTask M q)) := by
  refine ⟨fun hn => add_task_absent name hn, ?_⟩
  intro π hπ
  obtain ⟨hfresh, hok, hnew, hparent, hanc, hrest⟩ :=
    add_task_spec name (BuiltAR_Inv hB) hπ
  exact ⟨hok, hnew, hparent, hanc, hrest⟩

/-- Witness for C5: adding "c" to the two-leaf store's root returns the fresh
task `3`. -/
theorem claim_C5_witness :
    (WSB.add_task [] "c" twoLeafStore).1 = .ok (Task.new ([] ++ [2 + 1]) "c") := by
  have hB : BuiltAR twoLeafStore :=
    BuiltAR.add [] "b" (Task.new [2] "b")
      (BuiltAR.add [] "A" (Task.new [1] "A") (BuiltAR.construct "P") (by decide))
      (by decide)
  exact ((claim_C5 twoLeafStore [] "c" hB).2 { name := "P", id := [], planned_value := 0, actual_cost := 0, num_child := 2, status := TaskStatus.InProgress } (by decide)).1

/-- C6. `remove id` on a task that is present with `num_child > 0` fails with
`TrunkCannotBeRemoved id` and returns the store entirely unchanged. -/
theorem claim_C6 (M : Store) (id : TaskId) (t : Task)
    (ht : lookupTask M id = some t) (htr : 0 < t.num_child) :
    WSB.remove id M = (.error (.TrunkCannotBeRemoved id), M) := by
  rw [WSB.remove]
  simp only [ht]
  rw [if_pos htr]

/-- Witness for C6: removing the two-leaf store's root (2 children) fails and
leaves the store unchanged. -/
theorem claim_C6_witness :
    WSB.remove [] twoLeafStore = (.error (.TrunkCannotBeRemoved []), twoLeafStore) :=
  claim_C6 twoLeafStore [] { name := "P", id := [], planned_value := 0, actual_cost := 0, num_child := 2, status := TaskStatus.InProgress } (by decide) (by decide)

/-- C7 (amended). For a present trunk task: when the identifier is not the root,
`set_planned_value` fails `TrunkCannotChangeValue` and `set_actual_cost` fails
`TrunkCannotChangeCost`, each leaving the store unchanged; but when the trunk is
the ROOT, both setters fail with `NoParent` instead (the parent computation runs
before the trunk check), again leaving the store unchanged. -/
theorem claim_C7 (M : Store) (id : TaskId) (t : Task) (v : Rat)
    (ht : lookupTask M id = some t) (htr : t.is_trunk = true) :
    (id ≠ [] →
      WSB.set_planned_value id v M = (.error (.TrunkCannotChangeValue id), M) ∧
      WSB.set_actual_cost id v M = (.error (.TrunkCannotChangeCost id), M)) ∧
    (id = [] →
      WSB.set_planned_value id v M = (.error (.NoParent []), M) ∧
      WSB.set_actual_cost id v M = (.error (.NoParent []), M)) := by
  constructor
  · intro hne
    have hp : TaskId.parent id = .ok id.dropLast := by
      rw [TaskId.parent, if_neg hne]
    constructor
    · rw [WSB.set_planned_value, hp]
      simp only [ht]
      rw [if_pos htr]
    · rw [WSB.set_actual_cost, hp]
      simp only [ht]
      rw [if_pos htr]
  · rintro rfl
    have hp : TaskId.parent [] = .error (.NoParent []) := rfl
    constructor
    · rw [WSB.set_planned_value, hp]
    · rw [WSB.set_actual_cost, hp]

/-- Counterexample to C7 as stated: the root of the two-leaf store is a present
trunk, yet both setters fail with `NoParent`, not `TrunkCannotChangeValue` /
`TrunkCannotChangeCost`. -/
theorem claim_C7_cex :
    (lookupTask twoLeafStore []).map Task.is_trunk = some true ∧
    WSB.set_planned_value [] 5 twoLeafStore = (.error (.NoParent []), twoLeafStore) ∧
    WSB.set_actual_cost [] 5 twoLeafStore = (.error (.NoParent []), twoLeafStore) := by
  decide

/-- Witness for C7 at the non-root trunk `1` of the nested store. -/
theorem claim_C7_witness :
    WSB.set_planned_value [1] 7 nestedStore
      = (.error (.TrunkCannotChangeValue [1]), nestedStore) :=
  ((claim_C7 nestedStore [1] { name := "A", id := [1], planned_value := 0, actual_cost := 0, num_child := 1, status := TaskStatus.InProgress } 7 (by decide) (by decide)).1 (by decide)).1

/-- C8 (amended). `parse` returns the root identifier exactly on empty text;
otherwise it splits on '.' and succeeds exactly when every segment is accepted by
`u32` parsing (an optional leading '+', then one or more decimal digits, value
below `2^32` — zero IS accepted), failing with `BadTaskIdString` otherwise; empty
segments are never accepted, so a leading or trailing separator always fails. -/
theorem claim_C8 (s : List Char) :
    (s = [] → TaskId.parse s = .ok []) ∧
    (s ≠ [] → ∀ vs,
      (TaskId.parse s = .ok vs ↔ (splitDot s).mapM parseU32 = some vs)) ∧
    (s ≠ [] → (TaskId.parse s = .error (.BadTaskIdString s)
      ↔ ∃ seg ∈ splitDot s, parseU32 seg = none)) ∧
    (∀ s2, s = '.' :: s2 → TaskId.parse s = .error (.BadTaskIdString s)) ∧
    (∀ s2, s = s2 ++ ['.'] → TaskId.parse s = .error (.BadTaskIdString s)) ∧
    parseU32 [] = none := by
  refine ⟨?_, fun hs vs => parse_ok_iff hs vs, fun hs => parse_err_iff hs,
    ?_, ?_, by decide⟩
  · intro hs
    rw [TaskId.parse, if_pos hs]
  · rintro s2 rfl
    refine (parse_err_iff (by simp)).mpr ⟨[], ?_, by decide⟩
    rw [show splitDot ('.' :: s2) = [] :: splitDot s2 from by
      rw [splitDot, if_pos rfl]]
    exact List.mem_cons_self _ _
  · rintro s2 rfl
    refine (parse_err_iff (by simp)).mpr ⟨[], ?_, by decide⟩
    rw [splitDot_concat_dot]
    simp

/-- Counterexample to C8 as stated: segments need not be POSITIVE plain decimal
integers — `"0"` parses to `[0]` and `"+7"` parses to `[7]` (while leading and
trailing separators do fail as claimed). -/
theorem claim_C8_cex :
    TaskId.parse ['0'] = .ok [0] ∧
    TaskId.parse ['+', '7'] = .ok [7] ∧
    TaskId.parse ['1', '.', '1', '.'] = .error (.BadTaskIdString ['1', '.', '1', '.']) ∧
    TaskId.parse ['.', '1', '.', '1'] = .error (.BadTaskIdString ['.', '1', '.', '1']) ∧
    TaskId.parse [] = .ok [] := by
  decide

/-- C9. Rendering any identifier whose entries are positive `u32` indices (every
identifier reachable from the root via `children` / `new_child_id`) and parsing it
back yields the identifier: `parse (toText id) = ok id`. -/
theorem claim_C9 (id : TaskId) (h : ∀ n ∈ id, 1 ≤ n ∧ n < 2 ^ 32) :
    TaskId.parse (TaskId.toText id) = .ok id := by
  by_cases hid : id = []
  · subst hid
    rfl
  · have hdots : ∀ x ∈ id.map natChars, '.' ∉ x := by
      intro x hx
      rw [List.mem_map] at hx
      obtain ⟨n, hn, rfl⟩ := hx
      intro hdot
      exact absurd (natChars_digits n '.' hdot) (by decide)
    rw [TaskId.parse, if_neg (toText_ne_nil hid),
      show TaskId.toText id = List.intercalate ['.'] (id.map natChars) from rfl,
      splitDot_intercalate (id.map natChars) hdots (by simpa using hid),
      mapM_parseU32_natChars id (fun n hn => (h n hn).2)]

/-- Witness for C9 at the identifier `1.2.10`. -/
theorem claim_C9_witness :
    TaskId.parse (TaskId.toText [1, 2, 10]) = .ok [1, 2, 10] :=
  claim_C9 [1, 2, 10] (by decide)

/-- C10 (amended). A successful `remove` of a leaf `p ++ [k]` from a built store
keeps every task outside the parent's subtree and every earlier sibling subtree
bit-identical, keeps the statuses of relabeled later-sibling subtrees, but may
CHANGE statuses on the ancestor path `q <+: p`: each ancestor keeps its status or
moves to `Done` (the bottom-up completion re-evaluation runs during the removal). -/
theorem claim_C10 (M : Store) (p : TaskId) (k : Nat) (t : Task)
    (hB : BuiltAR M) (ht : lookupTask M (p ++ [k]) = some t)
    (hleaf : t.num_child = 0) :
    ∃ u π, lookupTask M p = some π ∧ (WSB.remove (p ++ [k]) M).1 = .ok u ∧
      (∀ q, ¬ q <+: p → ¬ p <+: q →
        lookupTask (WSB.remove (p ++ [k]) M).2 q = lookupTask M q) ∧
      (∀ j r, j < k →
        lookupTask (WSB.remove (p ++ [k]) M).2 (p ++ j :: r)
          = lookupTask M (p ++ j :: r)) ∧
      (∀ j r, k ≤ j → j + 1 ≤ π.num_child →
        (lookupTask (WSB.remove (p ++ [k]) M).2 (p ++ j :: r)).map Task.status
          = (lookupTask M (p ++ (j + 1) :: r)).map Task.status) ∧
      (∀ q, q <+: p →
        (lookupTask (WSB.remove (p ++ [k]) M).2 q).map Task.status
            = (lookupTask M q).map Task.status ∨
          (lookupTask (WSB.remove (p ++ [k]) M).2 q).map Task.status
            = some TaskStatus.Done) := by
  obtain ⟨u, π, hπ, hk1, hk2, hok, hu, hRp, hRanc, hshift, hvac, hlow, hout, hstat⟩ :=
    remove_spec (BuiltAR_Inv hB) ht hleaf
  refine ⟨u, π, hπ, hok, hout, hlow, ?_, hstat⟩
  intro j r hj hj2
  rw [hshift j r hj hj2]
  cases lookupTask M (p ++ (j + 1) :: r) with
  | none => rfl
  | some w => rfl

/-- Counterexample to C10 as stated: removing the `InProgress` leaf `1.2` (whose
parent `1` is not the root) from the staged store succeeds but flips the status
of the remaining ancestor `1` from `InProgress` to `Done`. -/
theorem claim_C10_cex :
    (lookupTask stagedStore [1, 2]).map Task.status = some TaskStatus.InProgress ∧
    (lookupTask stagedStore [1, 2]).map Task.num_child = some 0 ∧
    (lookupTask stagedStore [1]).map Task.status = some TaskStatus.InProgress ∧
    (WSB.remove [1, 2] stagedStore).1
      = .ok { name := "C", id := [1, 2], planned_value := 0, actual_cost := 0, num_child := 0, status := TaskStatus.Done } ∧
    (lookupTask (WSB.remove [1, 2] stagedStore).2 [1]).map Task.status
      = some TaskStatus.Done := by
  decide

/-- Witness for C10: removing leaf `2` of the two-leaf store leaves slot `1`
untouched. -/
theorem claim_C10_witness :
    lookupTask (WSB.remove ([] ++ [2]) twoLeafStore).2 ([] ++ 1 :: [])
      = lookupTask twoLeafStore ([] ++ 1 :: []) := by
  have hB : BuiltAR twoLeafStore :=
    BuiltAR.add [] "b" (Task.new [2] "b")
      (BuiltAR.add [] "A" (Task.new [1] "A") (BuiltAR.construct "P") (by decide))
      (by decide)
  obtain ⟨u, π, hπ, hok, hout, hlow, hshift, hstat⟩ :=
    claim_C10 twoLeafStore [] 2 { name := "b", id := [2], planned_value := 0, actual_cost := 0, num_child := 0, status := TaskStatus.InProgress } hB (by decide) (by decide)
  exact hlow 1 [] (by decide)

end Claims

end Aplan
